import Mathlib

/-!
Verification development for the tablet storage engine exercised by
`src/src/tserver/tablet_server-test.cc`.  The engine itself (tablet,
MVCC, flush/compaction orchestrator, write-ahead log, codec, scanner
manager) is not part of the source tree — only its test driver is — so
the engine is modelled here from the natural-language specification,
with every observable behavior pinned to what the test driver asserts.
-/

namespace KuduSpec

/-! ## Association-list primitives shared by all components -/

/-- Lookup of the first binding of key `k` in an association list. -/
def lookupA {α : Type} : List (Nat × α) → Nat → Option α
  | [], _ => none
  | (k', v) :: t, k => if k' = k then some v else lookupA t k

/-- Replace every binding of key `k` by the value `v`. -/
def updA {α : Type} : List (Nat × α) → Nat → α → List (Nat × α)
  | [], _, _ => []
  | (k', v') :: t, k, v => if k' = k then (k, v) :: updA t k v else (k', v') :: updA t k v

/-- Remove every binding of key `k`. -/
def delA {α : Type} : List (Nat × α) → Nat → List (Nat × α)
  | [], _ => []
  | (k', v') :: t, k => if k' = k then delA t k else (k', v') :: delA t k

theorem lookupA_append {α : Type} (l₁ l₂ : List (Nat × α)) (k : Nat) :
    lookupA (l₁ ++ l₂) k =
      match lookupA l₁ k with
      | some v => some v
      | none => lookupA l₂ k := by
  induction l₁ with
  | nil => simp [lookupA]
  | cons p t ih =>
    obtain ⟨k', v⟩ := p
    by_cases h : k' = k <;> simp [lookupA, h, ih]

theorem lookupA_updA_self {α : Type} (l : List (Nat × α)) (k : Nat) (v : α) :
    lookupA (updA l k v) k = (lookupA l k).map (fun _ => v) := by
  induction l with
  | nil => simp [lookupA, updA]
  | cons p t ih =>
    obtain ⟨k', v'⟩ := p
    by_cases h : k' = k <;> simp [lookupA, updA, h, ih]

theorem lookupA_updA_other {α : Type} (l : List (Nat × α)) (k k' : Nat) (v : α) (h : k ≠ k') :
    lookupA (updA l k v) k' = lookupA l k' := by
  induction l with
  | nil => simp [updA]
  | cons p t ih =>
    obtain ⟨k₀, v₀⟩ := p
    by_cases h₀ : k₀ = k
    · subst h₀; simp [lookupA, updA, h, ih]
    · by_cases h₁ : k₀ = k' <;> simp [lookupA, updA, h₀, h₁, Ne.symm h, ih]

theorem lookupA_delA_self {α : Type} (l : List (Nat × α)) (k : Nat) :
    lookupA (delA l k) k = none := by
  induction l with
  | nil => simp [lookupA, delA]
  | cons p t ih =>
    obtain ⟨k', v'⟩ := p
    by_cases h : k' = k <;> simp [lookupA, delA, h, ih]

theorem lookupA_delA_other {α : Type} (l : List (Nat × α)) (k k' : Nat) (h : k ≠ k') :
    lookupA (delA l k) k' = lookupA l k' := by
  induction l with
  | nil => simp [delA]
  | cons p t ih =>
    obtain ⟨k₀, v₀⟩ := p
    by_cases h₀ : k₀ = k
    · subst h₀; simp [lookupA, delA, h, ih]
    · by_cases h₁ : k₀ = k' <;> simp [lookupA, delA, h₀, h₁, Ne.symm h, ih]

/-! ## Delta operations and delta stores -/

/-- Modelled from the spec: a decoded RowChangeList applied as a delta —
either an update of the single integer value column or a deletion.
The delta encoding of the missing `RowChangeList` codec internals is
modelled at the level of decoded operations. -/
inductive DeltaOp : Type
  | upd (k v : Nat)
  | del (k : Nat)
deriving DecidableEq, Repr

def DeltaOp.key : DeltaOp → Nat
  | .upd k _ => k
  | .del k => k

/-- Effect of one delta on the current (possibly deleted) value of a row. -/
def applyDelta (cur : Option Nat) : DeltaOp → Option Nat
  | .upd _ v => cur.map (fun _ => v)
  | .del _ => none

/-- Apply, in order, exactly the deltas that target key `k`.  This is the
spec's invariant that deltas for a row are applied in strictly increasing
timestamp order: list order is arrival (commit) order. -/
def applyDeltasK (k : Nat) (cur : Option Nat) (ds : List DeltaOp) : Option Nat :=
  ds.foldl (fun c d => if d.key = k then applyDelta c d else c) cur

theorem applyDeltasK_append (k : Nat) (cur : Option Nat) (ds es : List DeltaOp) :
    applyDeltasK k cur (ds ++ es) = applyDeltasK k (applyDeltasK k cur ds) es := by
  simp [applyDeltasK, List.foldl_append]

theorem applyDeltasK_none (k : Nat) (ds : List DeltaOp) :
    applyDeltasK k none ds = none := by
  induction ds with
  | nil => rfl
  | cons d t ih =>
    have h : ∀ c : Option Nat, c = none → applyDeltasK k c t = none := by
      intro c hc; subst hc; exact ih
    cases d with
    | upd k' v => by_cases hk : k' = k <;> simp [applyDeltasK, DeltaOp.key, hk, applyDelta] at ih ⊢ <;> exact ih
    | del k' => by_cases hk : k' = k <;> simp [applyDeltasK, DeltaOp.key, hk, applyDelta] at ih ⊢ <;> exact ih

/-- Modelled from the spec: an on-disk row set — immutable sorted base data
written at flush/compaction time plus the chain of delta stores recording
updates/deletes applied after the base data was written. -/
structure DRS : Type where
  base : List (Nat × Nat)
  deltas : List DeltaOp
deriving DecidableEq, Repr

/-- Read one row of an on-disk row set: base value, then deltas in
timestamp order (a delete tombstones the row). -/
def DRS.read (d : DRS) (k : Nat) : Option Nat :=
  applyDeltasK k (lookupA d.base k) d.deltas

/-- Append a mutation to the row set's current (duplicating) delta store. -/
def DRS.addDelta (d : DRS) (o : DeltaOp) : DRS :=
  ⟨d.base, d.deltas ++ [o]⟩

theorem DRS.read_addDelta (d : DRS) (o : DeltaOp) (k : Nat) :
    (d.addDelta o).read k = if o.key = k then applyDelta (d.read k) o else d.read k := by
  simp only [DRS.read, DRS.addDelta, applyDeltasK_append]
  by_cases h : o.key = k <;> simp [applyDeltasK, h]

/-- Current live rows of an on-disk row set (base rows surviving deltas). -/
def DRS.materialize (d : DRS) : List (Nat × Nat) :=
  d.base.filterMap (fun p => (d.read p.1).map (fun v => (p.1, v)))

theorem lookupA_filterMap_read (g : Nat → Option Nat) (b : List (Nat × Nat)) (k : Nat) :
    lookupA (b.filterMap (fun p => (g p.1).map (fun v => (p.1, v)))) k =
      match lookupA b k with
      | none => none
      | some _ => g k := by
  induction b with
  | nil => simp [lookupA]
  | cons p t ih =>
    obtain ⟨k', v'⟩ := p
    by_cases h : k' = k
    · subst h
      cases hg : g k' with
      | none =>
        simp only [List.filterMap_cons, hg, Option.map_none']
        simp only [ih, lookupA, if_pos rfl]
        cases lookupA t k' <;> simp [hg]
      | some w => simp [List.filterMap_cons, hg, lookupA]
    · cases hg : g k' with
      | none => simp [List.filterMap_cons, hg, lookupA, h, ih]
      | some w => simp [List.filterMap_cons, hg, lookupA, h, ih]

theorem DRS.read_none_of_base_none (d : DRS) (k : Nat) (h : lookupA d.base k = none) :
    d.read k = none := by
  simp [DRS.read, h, applyDeltasK_none]

theorem DRS.lookupA_materialize (d : DRS) (k : Nat) :
    lookupA d.materialize k = d.read k := by
  rw [DRS.materialize, lookupA_filterMap_read]
  cases hb : lookupA d.base k with
  | none => exact (DRS.read_none_of_base_none d k hb).symm
  | some v => rfl

/-! ## Stores: the in-memory mutable row store and on-disk row sets -/

/-- Modelled from the spec: a live store of rows — either the in-memory
mutable row store (rows mutated in place) or an on-disk row set. -/
inductive Store : Type
  | mem (rows : List (Nat × Nat))
  | disk (d : DRS)
deriving DecidableEq, Repr

def Store.readS : Store → Nat → Option Nat
  | .mem rows, k => lookupA rows k
  | .disk d, k => d.read k

/-- Apply a routed mutation in place: in-memory rows are rewritten,
on-disk row sets get the delta appended to their delta store. -/
def Store.applyIn : Store → DeltaOp → Store
  | .mem rows, .upd k v => .mem (updA rows k v)
  | .mem rows, .del k => .mem (delA rows k)
  | .disk d, o => .disk (d.addDelta o)

theorem Store.readS_applyIn (s : Store) (o : DeltaOp) (k : Nat) :
    (s.applyIn o).readS k = if o.key = k then applyDelta (s.readS k) o else s.readS k := by
  cases s with
  | mem rows =>
    cases o with
    | upd k' v =>
      by_cases h : k' = k
      · subst h; simp [Store.applyIn, Store.readS, DeltaOp.key, lookupA_updA_self, applyDelta]
      · simp [Store.applyIn, Store.readS, DeltaOp.key, h, lookupA_updA_other _ _ _ _ h]
    | del k' =>
      by_cases h : k' = k
      · subst h; simp [Store.applyIn, Store.readS, DeltaOp.key, lookupA_delA_self, applyDelta]
      · simp [Store.applyIn, Store.readS, DeltaOp.key, h, lookupA_delA_other _ _ _ h]
  | disk d => simp [Store.applyIn, Store.readS, DRS.read_addDelta]

/-- Current live rows of a store. -/
def Store.materializeS : Store → List (Nat × Nat)
  | .mem rows => rows
  | .disk d => d.materialize

theorem Store.lookupA_materializeS (s : Store) (k : Nat) :
    lookupA s.materializeS k = s.readS k := by
  cases s with
  | mem rows => rfl
  | disk d => exact DRS.lookupA_materialize d k

/-- First live value for key `k` across an ordered list of stores. -/
def firstSomeS : List Store → Nat → Option Nat
  | [], _ => none
  | s :: t, k =>
    match s.readS k with
    | some v => some v
    | none => firstSomeS t k

/-- Number of stores in which key `k` is live. -/
def cnt1 (o : Option Nat) : Nat := if o.isSome then 1 else 0

def countS : List Store → Nat → Nat
  | [], _ => 0
  | s :: t, k => cnt1 (s.readS k) + countS t k

theorem firstSomeS_append (ss₁ ss₂ : List Store) (k : Nat) :
    firstSomeS (ss₁ ++ ss₂) k =
      match firstSomeS ss₁ k with
      | some v => some v
      | none => firstSomeS ss₂ k := by
  induction ss₁ with
  | nil => simp [firstSomeS]
  | cons s t ih =>
    simp only [List.cons_append, firstSomeS]
    cases s.readS k <;> simp [ih]

theorem countS_eq_zero_iff (ss : List Store) (k : Nat) :
    countS ss k = 0 ↔ firstSomeS ss k = none := by
  induction ss with
  | nil => simp [countS, firstSomeS]
  | cons s t ih =>
    simp only [countS, firstSomeS]
    cases h : s.readS k with
    | none => simp [cnt1, h, ih]
    | some v => simp [cnt1, h]

theorem cnt1_firstSomeS_le_countS (ss : List Store) (k : Nat) :
    cnt1 (firstSomeS ss k) ≤ countS ss k := by
  induction ss with
  | nil => simp [firstSomeS, countS, cnt1]
  | cons s t ih =>
    simp only [firstSomeS, countS]
    cases h : s.readS k with
    | none => simpa [cnt1, h] using ih
    | some v => simp [cnt1]

/-- Live rows of a list of stores, used as the flush/compaction snapshot. -/
def snapAll (ss : List Store) : List (Nat × Nat) :=
  ss.foldr (fun s acc => s.materializeS ++ acc) []

theorem lookupA_snapAll (ss : List Store) (k : Nat) :
    lookupA (snapAll ss) k = firstSomeS ss k := by
  induction ss with
  | nil => rfl
  | cons s t ih =>
    simp only [snapAll, List.foldr_cons, firstSomeS]
    rw [show (List.foldr (fun s acc => s.materializeS ++ acc) [] t) = snapAll t from rfl]
    rw [lookupA_append]
    rw [Store.lookupA_materializeS, ih]
    cases s.readS k <;> rfl

/-! ## The tablet and its flush/compaction state machine -/

/-- Modelled from the spec: the phases of the missing flush/compaction
orchestrator, in the order the lifecycle hooks of the test driver fire:
mem-store swap (or input selection), MVCC snapshot, base-data write,
duplicating-row-set install, missed-delta reapplication; the final
row-set swap returns to idle. -/
inductive Phase : Type
  | swapped
  | snapped
  | baseWritten
  | dupInstalled
  | missedReapplied
deriving DecidableEq, Repr

/-- Modelled from the spec: the in-flight state of the missing flush or
compaction: the input stores being rewritten (still accepting mutations
in place), the MVCC snapshot of their contents, the mutations that
arrived after the snapshot but before the duplicating row set was
installed (missed deltas), and the mutations duplicated into the new
row set afterwards. -/
structure RewriteCtx : Type where
  phase : Phase
  inputs : List Store
  snap : List (Nat × Nat)
  missed : List DeltaOp
  dup : List DeltaOp
deriving DecidableEq, Repr

/-- Client-visible operations on rows of one tablet.  REINSERT is in the
vocabulary because the codec accepts it, but the apply path rejects it. -/
inductive Op : Type
  | insert (k v : Nat)
  | update (k v : Nat)
  | delete (k : Nat)
  | reinsert (k : Nat)
deriving DecidableEq, Repr

/-- Per-row outcomes of the write path. -/
inductive RowErr : Type
  | alreadyPresent
  | notFound
  | badTypeEnum
  | malformedChange
  | reinsertNotAllowed
deriving DecidableEq, Repr

/-- Modelled from the spec: the missing tablet — in-memory mutable row
store, list of on-disk row sets, the in-flight flush/compaction if one
is running, and the write-ahead log of accepted mutations. -/
structure Tablet : Type where
  mrs : List (Nat × Nat)
  disks : List Store
  rw : Option RewriteCtx
  wal : List Op
deriving DecidableEq, Repr

def Tablet.empty : Tablet := ⟨[], [], none, []⟩

/-- Read the current value of a row: the mutable row store first, then
the on-disk row sets, then the stores being rewritten. -/
def Tablet.read (t : Tablet) (k : Nat) : Option Nat :=
  match lookupA t.mrs k with
  | some v => some v
  | none =>
    match firstSomeS t.disks k with
    | some v => some v
    | none =>
      match t.rw with
      | some c => firstSomeS c.inputs k
      | none => none

/-- Apply a routed mutation to the first store in which its key is live. -/
def updStores : List Store → DeltaOp → Option (List Store)
  | [], _ => none
  | s :: t, o =>
    if (s.readS o.key).isSome then some (s.applyIn o :: t)
    else (updStores t o).map (fun t' => s :: t')

/-- Modelled from the spec: record a mutation that hit one of the stores
being rewritten — before the snapshot it will simply be captured by the
snapshot; between the snapshot and the duplicating-row-set install it is
a missed delta; afterwards it is duplicated into the new row set. -/
def RewriteCtx.record (c : RewriteCtx) (o : DeltaOp) (inputs' : List Store) : RewriteCtx :=
  match c.phase with
  | .swapped => { c with inputs := inputs' }
  | .snapped | .baseWritten => { c with inputs := inputs', missed := c.missed ++ [o] }
  | .dupInstalled | .missedReapplied => { c with inputs := inputs', dup := c.dup ++ [o] }

/-- Modelled from the spec: route an UPDATE/DELETE to the store owning
its key (mutable row store, then on-disk row sets, then rewrite inputs),
logging the accepted mutation; a key live nowhere yields NotFound. -/
def applyMemRows (rows : List (Nat × Nat)) : DeltaOp → List (Nat × Nat)
  | .upd k v => updA rows k v
  | .del k => delA rows k

theorem lookupA_applyMemRows (rows : List (Nat × Nat)) (o : DeltaOp) (k : Nat) :
    lookupA (applyMemRows rows o) k =
      if o.key = k then applyDelta (lookupA rows k) o else lookupA rows k := by
  have h := Store.readS_applyIn (.mem rows) o k
  cases o <;> simpa [Store.applyIn, Store.readS, applyMemRows] using h

def Tablet.applyMut (t : Tablet) (o : DeltaOp) (lop : Op) : Tablet × Option RowErr :=
  if (lookupA t.mrs o.key).isSome then
    ({ t with mrs := applyMemRows t.mrs o, wal := t.wal ++ [lop] }, none)
  else
    match updStores t.disks o with
    | some ds => ({ t with disks := ds, wal := t.wal ++ [lop] }, none)
    | none =>
      match t.rw with
      | some c =>
        match updStores c.inputs o with
        | some ins => ({ t with rw := some (c.record o ins), wal := t.wal ++ [lop] }, none)
        | none => (t, some .notFound)
      | none => (t, some .notFound)

/-- Modelled from the spec: apply one client operation.  Inserts go to the
mutable row store and fail with AlreadyPresent if the key is live anywhere;
a client REINSERT is rejected by this apply path. -/
def Tablet.applyOp (t : Tablet) : Op → Tablet × Option RowErr
  | .insert k v =>
    match t.read k with
    | some _ => (t, some .alreadyPresent)
    | none => ({ t with mrs := t.mrs ++ [(k, v)], wal := t.wal ++ [.insert k v] }, none)
  | .update k v => t.applyMut (.upd k v) (.update k v)
  | .delete k => t.applyMut (.del k) (.delete k)
  | .reinsert _ => (t, some .reinsertNotAllowed)

/-- Modelled from the spec: start a flush — atomically swap in a fresh
empty mutable row store; the old one becomes the rewrite input.  A no-op
if a flush/compaction is already running (they are serialized). -/
def Tablet.startFlush (t : Tablet) : Tablet :=
  match t.rw with
  | some _ => t
  | none => { t with mrs := [], rw := some ⟨.swapped, [Store.mem t.mrs], [], [], []⟩ }

/-- Modelled from the spec: start a compaction of all on-disk row sets —
they become the rewrite inputs, to be merged into one output row set. -/
def Tablet.startCompact (t : Tablet) : Tablet :=
  match t.rw with
  | some _ => t
  | none => { t with disks := [], rw := some ⟨.swapped, t.disks, [], [], []⟩ }

/-- Modelled from the spec: advance the flush/compaction one phase.  The
snapshot phase captures the inputs' live rows; the final step installs
the new on-disk row set (snapshot base plus missed deltas reapplied ahead
of the duplicated mutations) and retires the inputs. -/
def Tablet.stepRewrite (t : Tablet) : Tablet :=
  match t.rw with
  | none => t
  | some c =>
    match c.phase with
    | .swapped => { t with rw := some { c with phase := .snapped, snap := snapAll c.inputs } }
    | .snapped => { t with rw := some { c with phase := .baseWritten } }
    | .baseWritten => { t with rw := some { c with phase := .dupInstalled } }
    | .dupInstalled => { t with rw := some { c with phase := .missedReapplied } }
    | .missedReapplied =>
      { t with rw := none, disks := t.disks ++ [Store.disk ⟨c.snap, c.missed ++ c.dup⟩] }

/-- Events driving one tablet: a client write of one operation, or one of
the flush/compaction lifecycle transitions at whose boundaries the test
driver injects mutations. -/
inductive Ev : Type
  | write (o : Op)
  | startFlush
  | startCompact
  | stepRewrite
deriving DecidableEq, Repr

def Tablet.stepEv (t : Tablet) : Ev → Tablet
  | .write o => (t.applyOp o).1
  | .startFlush => t.startFlush
  | .startCompact => t.startCompact
  | .stepRewrite => t.stepRewrite

def runEvents (evs : List Ev) : Tablet :=
  evs.foldl Tablet.stepEv Tablet.empty

/-! ## Reference semantics: one flat map, no flush/compaction -/

/-- Reference semantics of one operation on a flat key-value list: what
the tablet must observably do, with no flush/compaction anywhere. -/
def simpleApply (m : List (Nat × Nat)) : Op → List (Nat × Nat) × Option RowErr
  | .insert k v =>
    match lookupA m k with
    | some _ => (m, some .alreadyPresent)
    | none => (m ++ [(k, v)], none)
  | .update k v => if (lookupA m k).isSome then (updA m k v, none) else (m, some .notFound)
  | .delete k => if (lookupA m k).isSome then (delA m k, none) else (m, some .notFound)
  | .reinsert _ => (m, some .reinsertNotAllowed)

def refStep (m : List (Nat × Nat)) (o : Op) : List (Nat × Nat) := (simpleApply m o).1

def refEvStep (m : List (Nat × Nat)) : Ev → List (Nat × Nat)
  | .write o => refStep m o
  | _ => m

def refRun (evs : List Ev) : List (Nat × Nat) :=
  evs.foldl refEvStep []

/-! ## Write-ahead-log recovery -/

/-- Modelled from the spec: one step of log replay — the replayed record
is applied against the rebuilt state and re-logged, preserving
single-writer append semantics. -/
def rebuildStep (p : List (Nat × Nat) × List Op) (o : Op) : List (Nat × Nat) × List Op :=
  match simpleApply p.1 o with
  | (m, none) => (m, p.2 ++ [o])
  | (_, some _) => p

/-- Modelled from the spec: crash recovery — replay every log record in
commit order against an initially empty row-set state, re-logging what is
replayed.  Returns the rebuilt live rows and the new log. -/
def rebuild (w : List Op) : List (Nat × Nat) × List Op :=
  w.foldl rebuildStep ([], [])

/-! ## Routing lemmas -/

theorem countS_append (ss₁ ss₂ : List Store) (k : Nat) :
    countS (ss₁ ++ ss₂) k = countS ss₁ k + countS ss₂ k := by
  induction ss₁ with
  | nil => simp [countS]
  | cons s t ih => simp [countS, ih, Nat.add_assoc]

theorem updStores_none (ss : List Store) (o : DeltaOp) (h : updStores ss o = none) :
    firstSomeS ss o.key = none := by
  induction ss with
  | nil => rfl
  | cons s t ih =>
    simp only [updStores] at h
    by_cases hs : (s.readS o.key).isSome
    · simp [hs] at h
    · cases ho : updStores t o with
      | none =>
        have hn : s.readS o.key = none := by
          cases hr : s.readS o.key
          · rfl
          · exact absurd (by simp [hr]) hs
        simp [firstSomeS, hn, ih ho]
      | some t' => simp [hs, ho] at h

theorem updStores_isSome (ss : List Store) (o : DeltaOp) (ss' : List Store)
    (h : updStores ss o = some ss') : (firstSomeS ss o.key).isSome := by
  induction ss generalizing ss' with
  | nil => simp [updStores] at h
  | cons s t ih =>
    simp only [updStores] at h
    by_cases hs : (s.readS o.key).isSome
    · obtain ⟨w, hw⟩ := Option.isSome_iff_exists.mp hs
      simp [firstSomeS, hw]
    · have hn : s.readS o.key = none := by
        cases hr : s.readS o.key
        · rfl
        · exact absurd (by simp [hr]) hs
      cases ho : updStores t o with
      | none => simp [hs, ho] at h
      | some t' => simpa [firstSomeS, hn] using ih t' ho

theorem updStores_count (ss : List Store) (o : DeltaOp) (ss' : List Store)
    (h : updStores ss o = some ss') (k : Nat) : countS ss' k ≤ countS ss k := by
  induction ss generalizing ss' with
  | nil => simp [updStores] at h
  | cons s t ih =>
    simp only [updStores] at h
    by_cases hs : (s.readS o.key).isSome
    · rw [if_pos hs] at h
      have h' := Option.some.inj h
      subst h'
      have hle : cnt1 ((s.applyIn o).readS k) ≤ cnt1 (s.readS k) := by
        rw [Store.readS_applyIn]
        by_cases hk : o.key = k
        · cases o with
          | upd k' v => cases hr : s.readS k <;> simp [hk, applyDelta, cnt1, hr]
          | del k' => simp [hk, applyDelta, cnt1]
        · simp [hk]
      simpa [countS] using Nat.add_le_add hle (Nat.le_refl (countS t k))
    · cases ho : updStores t o with
      | none => rw [if_neg hs, ho] at h; simp at h
      | some t' =>
        rw [if_neg hs, ho] at h
        simp only [Option.map_some', Option.some.injEq] at h
        subst h
        simpa [countS] using Nat.add_le_add (Nat.le_refl (cnt1 (s.readS k))) (ih t' ho)

theorem updStores_reads (ss : List Store) (o : DeltaOp) (ss' : List Store)
    (h : updStores ss o = some ss') (hu : countS ss o.key ≤ 1) (k : Nat) :
    firstSomeS ss' k =
      if o.key = k then applyDelta (firstSomeS ss o.key) o else firstSomeS ss k := by
  induction ss generalizing ss' with
  | nil => simp [updStores] at h
  | cons s t ih =>
    simp only [updStores] at h
    by_cases hs : (s.readS o.key).isSome
    · rw [if_pos hs] at h
      have h' := Option.some.inj h
      subst h'
      obtain ⟨w, hw⟩ := Option.isSome_iff_exists.mp hs
      by_cases hk : o.key = k
      · subst hk
        have hct : countS t o.key = 0 := by
          simp [countS, cnt1, hw] at hu
          omega
        have hft : firstSomeS t o.key = none := (countS_eq_zero_iff t o.key).mp hct
        simp only [firstSomeS, Store.readS_applyIn, if_pos rfl, hw, if_pos rfl]
        cases o with
        | upd k' v => simp [applyDelta]
        | del k' => simp [applyDelta, hft]
      · simp [firstSomeS, Store.readS_applyIn, hk, hw]
    · have hn : s.readS o.key = none := by
        cases hr : s.readS o.key
        · rfl
        · exact absurd (by simp [hr]) hs
      cases ho : updStores t o with
      | none => rw [if_neg hs, ho] at h; simp at h
      | some t' =>
        rw [if_neg hs, ho] at h
        simp only [Option.map_some', Option.some.injEq] at h
        subst h
        have hut : countS t o.key ≤ 1 := by
          simp [countS, cnt1, hn] at hu
          omega
        by_cases hk : o.key = k
        · subst hk
          simp [firstSomeS, hn, ih t' ho hut]
        · simp [firstSomeS, hk, ih t' ho hut]

/-! ## The observational invariant -/

/-- Coherence of an in-flight rewrite after its snapshot: the snapshot
base data with the missed deltas reapplied ahead of the duplicated
mutations reads exactly like the current state of the input stores. -/
def Coherent (c : RewriteCtx) : Prop :=
  ∀ k, applyDeltasK k (lookupA c.snap k) (c.missed ++ c.dup) = firstSomeS c.inputs k

def CtxInv (c : RewriteCtx) : Prop :=
  match c.phase with
  | .swapped => c.snap = [] ∧ c.missed = [] ∧ c.dup = []
  | .snapped => c.dup = [] ∧ Coherent c
  | .baseWritten => c.dup = [] ∧ Coherent c
  | .dupInstalled => Coherent c
  | .missedReapplied => Coherent c

/-- Number of live stores owning key `k` in the whole tablet. -/
def ownersCount (t : Tablet) (k : Nat) : Nat :=
  cnt1 (lookupA t.mrs k) + countS t.disks k +
    (match t.rw with
     | some c => countS c.inputs k
     | none => 0)

/-- The refinement invariant: the tablet reads exactly like the flat
reference map, each key is live in at most one store, the in-flight
rewrite (if any) is coherent, and replaying the write-ahead log rebuilds
the reference map while re-logging the same log. -/
structure Good (t : Tablet) (r : List (Nat × Nat)) : Prop where
  read_eq : ∀ k, t.read k = lookupA r k
  uniq : ∀ k, ownersCount t k ≤ 1
  ctx : ∀ c, t.rw = some c → CtxInv c
  wal_ok : rebuild t.wal = (r, t.wal)

theorem Tablet.read_none_parts (t : Tablet) (k : Nat) (h : t.read k = none) :
    lookupA t.mrs k = none ∧ firstSomeS t.disks k = none ∧
      (∀ c, t.rw = some c → firstSomeS c.inputs k = none) := by
  unfold Tablet.read at h
  cases hm : lookupA t.mrs k with
  | some v => simp [hm] at h
  | none =>
    cases hd : firstSomeS t.disks k with
    | some v => simp [hm, hd] at h
    | none =>
      refine ⟨rfl, rfl, ?_⟩
      intro c hc
      simpa [hm, hd, hc] using h

theorem rebuild_append (w : List Op) (o : Op) :
    rebuild (w ++ [o]) = rebuildStep (rebuild w) o := by
  simp [rebuild, List.foldl_append]

theorem applyDeltasK_single (k : Nat) (cur : Option Nat) (o : DeltaOp) :
    applyDeltasK k cur [o] = if o.key = k then applyDelta cur o else cur := by
  simp [applyDeltasK]

theorem lookupA_append_other {α : Type} (l : List (Nat × α)) (k k' : Nat) (v : α)
    (hk : k ≠ k') : lookupA (l ++ [(k, v)]) k' = lookupA l k' := by
  rw [lookupA_append]
  cases lookupA l k' <;> simp [lookupA, hk]

theorem lookupA_append_self {α : Type} (l : List (Nat × α)) (k : Nat) (v : α)
    (hk : lookupA l k = none) : lookupA (l ++ [(k, v)]) k = some v := by
  rw [lookupA_append, hk]
  simp [lookupA]

/-- Inserting preserves the refinement invariant, whether the key is a
duplicate (per-row AlreadyPresent, no state change) or fresh. -/
theorem good_insert (t : Tablet) (r : List (Nat × Nat)) (k v : Nat) (h : Good t r) :
    Good (t.applyOp (.insert k v)).1 (refStep r (.insert k v)) := by
  cases hr : t.read k with
  | some w =>
    have hlr : lookupA r k = some w := by rw [← h.read_eq k]; exact hr
    simp only [Tablet.applyOp, hr, refStep, simpleApply, hlr]
    exact h
  | none =>
    obtain ⟨hm, hd, hin⟩ := t.read_none_parts k hr
    have hlr : lookupA r k = none := by rw [← h.read_eq k]; exact hr
    simp only [Tablet.applyOp, hr, refStep, simpleApply, hlr]
    refine ⟨?_, ?_, ?_, ?_⟩
    · intro k'
      by_cases hk : k = k'
      · subst hk
        simp only [Tablet.read]
        rw [lookupA_append_self t.mrs k v hm, lookupA_append_self r k v hlr]
      · have hmrs := lookupA_append_other t.mrs k k' v hk
        have hrr := lookupA_append_other r k k' v hk
        have hold := h.read_eq k'
        simp only [Tablet.read] at hold ⊢
        rw [hmrs, hrr]
        exact hold
    · intro k'
      by_cases hk : k = k'
      · subst hk
        have hd0 : countS t.disks k = 0 := (countS_eq_zero_iff _ _).mpr hd
        simp only [ownersCount, lookupA_append_self t.mrs k v hm, hd0]
        cases htrw : t.rw with
        | none => simp [cnt1]
        | some c =>
          have hi0 : countS c.inputs k = 0 := (countS_eq_zero_iff _ _).mpr (hin c htrw)
          simp [cnt1, hi0]
      · have := h.uniq k'
        simpa [ownersCount, lookupA_append_other t.mrs k k' v hk] using this
    · intro c hc
      exact h.ctx c hc
    · rw [rebuild_append, h.wal_ok]
      simp [rebuildStep, simpleApply, hlr]

/-- Logged-op view of a delta operation. -/
def DeltaOp.toOp : DeltaOp → Op
  | .upd k v => .update k v
  | .del k => .delete k

theorem simpleApply_toOp (m : List (Nat × Nat)) (o : DeltaOp) :
    simpleApply m o.toOp =
      if (lookupA m o.key).isSome then (applyMemRows m o, none) else (m, some .notFound) := by
  cases o <;> simp [DeltaOp.toOp, simpleApply, DeltaOp.key, applyMemRows]

theorem RewriteCtx.record_inputs (c : RewriteCtx) (o : DeltaOp) (ins' : List Store) :
    (c.record o ins').inputs = ins' := by
  rcases c with ⟨p, i, sn, mi, du⟩
  cases p <;> rfl

theorem RewriteCtx.record_phase (c : RewriteCtx) (o : DeltaOp) (ins' : List Store) :
    (c.record o ins').phase = c.phase := by
  rcases c with ⟨p, i, sn, mi, du⟩
  cases p <;> rfl

theorem Tablet.read_def (m : List (Nat × Nat)) (ds : List Store) (rwc : Option RewriteCtx)
    (w : List Op) (k : Nat) :
    Tablet.read ⟨m, ds, rwc, w⟩ k =
      match lookupA m k with
      | some v => some v
      | none =>
        match firstSomeS ds k with
        | some v => some v
        | none =>
          match rwc with
          | some c => firstSomeS c.inputs k
          | none => none := rfl

theorem Tablet.read_mk_some (m : List (Nat × Nat)) (ds : List Store) (c : RewriteCtx)
    (w : List Op) (k : Nat) :
    Tablet.read ⟨m, ds, some c, w⟩ k =
      match lookupA m k with
      | some v => some v
      | none =>
        match firstSomeS ds k with
        | some v => some v
        | none => firstSomeS c.inputs k := rfl

theorem Tablet.read_mk_none (m : List (Nat × Nat)) (ds : List Store) (w : List Op) (k : Nat) :
    Tablet.read ⟨m, ds, none, w⟩ k =
      match lookupA m k with
      | some v => some v
      | none =>
        match firstSomeS ds k with
        | some v => some v
        | none => none := rfl

theorem ownersCount_mk_some (m : List (Nat × Nat)) (ds : List Store) (c : RewriteCtx)
    (w : List Op) (k : Nat) :
    ownersCount ⟨m, ds, some c, w⟩ k = cnt1 (lookupA m k) + countS ds k + countS c.inputs k := rfl

theorem ownersCount_mk_none (m : List (Nat × Nat)) (ds : List Store) (w : List Op) (k : Nat) :
    ownersCount ⟨m, ds, none, w⟩ k = cnt1 (lookupA m k) + countS ds k := rfl

/-- Routing an UPDATE/DELETE — to the mutable row store, an on-disk row
set, or a store being rewritten (with missed/duplicated recording) —
preserves the refinement invariant, and a key live nowhere is a per-row
NotFound leaving the tablet untouched. -/
theorem good_applyMut (t : Tablet) (r : List (Nat × Nat)) (o : DeltaOp) (h : Good t r) :
    Good (t.applyMut o o.toOp).1 (refStep r o.toOp) := by
  obtain ⟨tm, td, trw, tw⟩ := t
  by_cases hm : (lookupA tm o.key).isSome
  · -- the mutable row store owns the key
    obtain ⟨w, hw⟩ := Option.isSome_iff_exists.mp hm
    have hlr : lookupA r o.key = some w := by
      rw [← h.read_eq o.key, Tablet.read_def]
      simp [hw]
    have hris : (lookupA r o.key).isSome := by simp [hlr]
    have ht' : (Tablet.applyMut ⟨tm, td, trw, tw⟩ o o.toOp).1 =
        ⟨applyMemRows tm o, td, trw, tw ++ [o.toOp]⟩ := by
      rw [Tablet.applyMut]
      simp only [if_pos hm]
    have hr' : refStep r o.toOp = applyMemRows r o := by
      rw [refStep, simpleApply_toOp, if_pos hris]
    rw [ht', hr']
    have hnew : lookupA (applyMemRows tm o) o.key = applyDelta (some w) o := by
      rw [lookupA_applyMemRows, if_pos rfl, hw]
    have hrhs : lookupA (applyMemRows r o) o.key = applyDelta (some w) o := by
      rw [lookupA_applyMemRows, if_pos rfl, hlr]
    refine ⟨?_, ?_, ?_, ?_⟩
    · intro k
      by_cases hk : o.key = k
      · subst hk
        cases had : applyDelta (some w) o with
        | some v =>
          rw [Tablet.read_def]
          simp [hnew, had, hrhs]
        | none =>
          have h1 := h.uniq o.key
          cases htrw : trw with
          | none =>
            subst htrw
            rw [ownersCount_mk_none, hw] at h1
            have hd0 : countS td o.key = 0 := by simp [cnt1] at h1; omega
            rw [Tablet.read_def]
            simp [hnew, had, (countS_eq_zero_iff _ _).mp hd0, hrhs]
          | some c =>
            subst htrw
            rw [ownersCount_mk_some, hw] at h1
            have hd0 : countS td o.key = 0 := by simp [cnt1] at h1; omega
            have hi0 : countS c.inputs o.key = 0 := by simp [cnt1] at h1; omega
            rw [Tablet.read_def]
            simp [hnew, had, (countS_eq_zero_iff _ _).mp hd0,
                  (countS_eq_zero_iff _ _).mp hi0, hrhs]
      · have hmo : lookupA (applyMemRows tm o) k = lookupA tm k := by
          rw [lookupA_applyMemRows, if_neg hk]
        have hro : lookupA (applyMemRows r o) k = lookupA r k := by
          rw [lookupA_applyMemRows, if_neg hk]
        have hold := h.read_eq k
        rw [Tablet.read_def] at hold
        rw [Tablet.read_def, hmo, hro]
        exact hold
    · intro k
      have h1 := h.uniq k
      have hcle : cnt1 (lookupA (applyMemRows tm o) k) ≤ cnt1 (lookupA tm k) := by
        rw [lookupA_applyMemRows]
        by_cases hk : o.key = k
        · rw [if_pos hk]
          cases o with
          | upd k' v => cases hx : lookupA tm k <;> simp [applyDelta, cnt1, hx]
          | del k' => simp [applyDelta, cnt1]
        · rw [if_neg hk]
      cases htrw : trw with
      | none =>
        subst htrw
        rw [ownersCount_mk_none] at h1 ⊢
        omega
      | some c =>
        subst htrw
        rw [ownersCount_mk_some] at h1 ⊢
        omega
    · intro c hc
      exact h.ctx c hc
    · rw [rebuild_append, h.wal_ok]
      simp [rebuildStep, simpleApply_toOp, hris]
  · -- the key is not in the mutable row store
    have hmn : lookupA tm o.key = none := by
      cases hx : lookupA tm o.key with
      | none => rfl
      | some w => exact absurd (by simp [hx]) hm
    cases hds : updStores td o with
    | some ds' =>
      -- an on-disk row set owns the key
      have hfd := updStores_isSome td o ds' hds
      obtain ⟨w, hwd⟩ := Option.isSome_iff_exists.mp hfd
      have hlr : lookupA r o.key = some w := by
        rw [← h.read_eq o.key, Tablet.read_def]
        simp [hmn, hwd]
      have hris : (lookupA r o.key).isSome := by simp [hlr]
      have hcd : countS td o.key ≤ 1 := by
        have h1 := h.uniq o.key
        cases htrw : trw with
        | none =>
          subst htrw
          rw [ownersCount_mk_none] at h1; omega
        | some c =>
          subst htrw
          rw [ownersCount_mk_some] at h1; omega
      have ht' : (Tablet.applyMut ⟨tm, td, trw, tw⟩ o o.toOp).1 =
          ⟨tm, ds', trw, tw ++ [o.toOp]⟩ := by
        rw [Tablet.applyMut]
        simp [hmn, hds]
      have hr' : refStep r o.toOp = applyMemRows r o := by
        rw [refStep, simpleApply_toOp, if_pos hris]
      rw [ht', hr']
      have hreads := updStores_reads td o ds' hds hcd
      refine ⟨?_, ?_, ?_, ?_⟩
      · intro k
        by_cases hk : o.key = k
        · subst hk
          have hdsr : firstSomeS ds' o.key = applyDelta (some w) o := by
            rw [hreads o.key, if_pos rfl, hwd]
          have hrhs : lookupA (applyMemRows r o) o.key = applyDelta (some w) o := by
            rw [lookupA_applyMemRows, if_pos rfl, hlr]
          cases had : applyDelta (some w) o with
          | some v =>
            rw [Tablet.read_def]
            simp [hmn, hdsr, had, hrhs]
          | none =>
            cases htrw : trw with
            | none =>
              subst htrw
              rw [Tablet.read_def]
              simp [hmn, hdsr, had, hrhs]
            | some c =>
              subst htrw
              have h1 := h.uniq o.key
              rw [ownersCount_mk_some] at h1
              have hcd1 : 1 ≤ countS td o.key := by
                have hx := cnt1_firstSomeS_le_countS td o.key
                rw [hwd] at hx
                simpa [cnt1] using hx
              have hi0 : countS c.inputs o.key = 0 := by omega
              rw [Tablet.read_def]
              simp [hmn, hdsr, had, (countS_eq_zero_iff _ _).mp hi0, hrhs]
        · have hdo : firstSomeS ds' k = firstSomeS td k := by
            rw [hreads k, if_neg hk]
          have hro : lookupA (applyMemRows r o) k = lookupA r k := by
            rw [lookupA_applyMemRows, if_neg hk]
          have hold := h.read_eq k
          rw [Tablet.read_def] at hold
          rw [Tablet.read_def, hdo, hro]
          exact hold
      · intro k
        have h1 := h.uniq k
        have hcnt := updStores_count td o ds' hds k
        cases htrw : trw with
        | none =>
          subst htrw
          rw [ownersCount_mk_none] at h1 ⊢
          omega
        | some c =>
          subst htrw
          rw [ownersCount_mk_some] at h1 ⊢
          omega
      · intro c hc
        exact h.ctx c hc
      · rw [rebuild_append, h.wal_ok]
        simp [rebuildStep, simpleApply_toOp, hris]
    | none =>
      have hfdn : firstSomeS td o.key = none := updStores_none td o hds
      cases htrw : trw with
      | none =>
        subst htrw
        have hread : Tablet.read ⟨tm, td, none, tw⟩ o.key = none := by
          rw [Tablet.read_mk_none]
          simp [hmn, hfdn]
        have hlr : lookupA r o.key = none := by rw [← h.read_eq o.key]; exact hread
        have ht' : (Tablet.applyMut ⟨tm, td, none, tw⟩ o o.toOp).1 = ⟨tm, td, none, tw⟩ := by
          rw [Tablet.applyMut]
          simp [hmn, hds]
        have hr' : refStep r o.toOp = r := by
          rw [refStep, simpleApply_toOp, if_neg (by simp [hlr])]
        rw [ht', hr']
        exact h
      | some c =>
        subst htrw
        rcases c with ⟨p, cins, csn, cmi, cdu⟩
        cases hins : updStores cins o with
        | none =>
          have hfin : firstSomeS cins o.key = none := updStores_none cins o hins
          have hread : Tablet.read ⟨tm, td, some ⟨p, cins, csn, cmi, cdu⟩, tw⟩ o.key = none := by
            rw [Tablet.read_mk_some]
            simp [hmn, hfdn, hfin]
          have hlr : lookupA r o.key = none := by rw [← h.read_eq o.key]; exact hread
          have ht' : (Tablet.applyMut ⟨tm, td, some ⟨p, cins, csn, cmi, cdu⟩, tw⟩ o o.toOp).1 =
              ⟨tm, td, some ⟨p, cins, csn, cmi, cdu⟩, tw⟩ := by
            rw [Tablet.applyMut]
            simp [hmn, hds, hins]
          have hr' : refStep r o.toOp = r := by
            rw [refStep, simpleApply_toOp, if_neg (by simp [hlr])]
          rw [ht', hr']
          exact h
        | some ins' =>
          -- a store being rewritten owns the key
          have hfi := updStores_isSome cins o ins' hins
          obtain ⟨w, hwi⟩ := Option.isSome_iff_exists.mp hfi
          have hlr : lookupA r o.key = some w := by
            rw [← h.read_eq o.key, Tablet.read_mk_some]
            simp [hmn, hfdn, hwi]
          have hris : (lookupA r o.key).isSome := by simp [hlr]
          have hci : countS cins o.key ≤ 1 := by
            have h1 := h.uniq o.key
            simp only [ownersCount_mk_some] at h1
            omega
          have hireads := updStores_reads cins o ins' hins hci
          have ht' : (Tablet.applyMut ⟨tm, td, some ⟨p, cins, csn, cmi, cdu⟩, tw⟩ o o.toOp).1 =
              ⟨tm, td, some (RewriteCtx.record ⟨p, cins, csn, cmi, cdu⟩ o ins'), tw ++ [o.toOp]⟩ := by
            rw [Tablet.applyMut]
            simp [hmn, hds, hins]
          have hr' : refStep r o.toOp = applyMemRows r o := by
            rw [refStep, simpleApply_toOp, if_pos hris]
          rw [ht', hr']
          refine ⟨?_, ?_, ?_, ?_⟩
          · intro k
            by_cases hk : o.key = k
            · subst hk
              have hinr : firstSomeS ins' o.key = applyDelta (some w) o := by
                rw [hireads o.key, if_pos rfl, hwi]
              have hrhs : lookupA (applyMemRows r o) o.key = applyDelta (some w) o := by
                rw [lookupA_applyMemRows, if_pos rfl, hlr]
              rw [Tablet.read_def]
              simp [hmn, hfdn, RewriteCtx.record_inputs, hinr, hrhs]
            · have hio : firstSomeS ins' k = firstSomeS cins k := by
                rw [hireads k, if_neg hk]
              have hro : lookupA (applyMemRows r o) k = lookupA r k := by
                rw [lookupA_applyMemRows, if_neg hk]
              have hold := h.read_eq k
              rw [Tablet.read_mk_some] at hold
              rw [Tablet.read_mk_some, RewriteCtx.record_inputs, hio, hro]
              exact hold
          · intro k
            have h1 := h.uniq k
            have hcnt := updStores_count cins o ins' hins k
            simp only [ownersCount_mk_some] at h1
            simp only [ownersCount_mk_some, RewriteCtx.record_inputs]
            omega
          · intro c' hc'
            have hc'' : c' = RewriteCtx.record ⟨p, cins, csn, cmi, cdu⟩ o ins' :=
              (Option.some.inj hc').symm
            subst hc''
            have hcinv := h.ctx ⟨p, cins, csn, cmi, cdu⟩ rfl
            cases p with
            | swapped => exact hcinv
            | snapped =>
              obtain ⟨hdup, hcoh⟩ := hcinv
              simp only at hdup
              subst hdup
              refine ⟨rfl, ?_⟩
              intro k
              have hc2 := hcoh k
              simp only [List.append_nil] at hc2
              show applyDeltasK k (lookupA csn k) ((cmi ++ [o]) ++ []) = firstSomeS ins' k
              rw [List.append_nil, applyDeltasK_append, applyDeltasK_single, hc2, hireads k]
              by_cases hk : o.key = k
              · subst hk; simp
              · simp [hk]
            | baseWritten =>
              obtain ⟨hdup, hcoh⟩ := hcinv
              simp only at hdup
              subst hdup
              refine ⟨rfl, ?_⟩
              intro k
              have hc2 := hcoh k
              simp only [List.append_nil] at hc2
              show applyDeltasK k (lookupA csn k) ((cmi ++ [o]) ++ []) = firstSomeS ins' k
              rw [List.append_nil, applyDeltasK_append, applyDeltasK_single, hc2, hireads k]
              by_cases hk : o.key = k
              · subst hk; simp
              · simp [hk]
            | dupInstalled =>
              intro k
              have hc2 := hcinv k
              show applyDeltasK k (lookupA csn k) (cmi ++ (cdu ++ [o])) = firstSomeS ins' k
              rw [← List.append_assoc, applyDeltasK_append, applyDeltasK_single, hc2, hireads k]
              by_cases hk : o.key = k
              · subst hk; simp
              · simp [hk]
            | missedReapplied =>
              intro k
              have hc2 := hcinv k
              show applyDeltasK k (lookupA csn k) (cmi ++ (cdu ++ [o])) = firstSomeS ins' k
              rw [← List.append_assoc, applyDeltasK_append, applyDeltasK_single, hc2, hireads k]
              by_cases hk : o.key = k
              · subst hk; simp
              · simp [hk]
          · rw [rebuild_append, h.wal_ok]
            simp [rebuildStep, simpleApply_toOp, hris]

theorem firstSomeS_single_mem (rows : List (Nat × Nat)) (k : Nat) :
    firstSomeS [Store.mem rows] k = lookupA rows k := by
  simp only [firstSomeS, Store.readS]
  cases lookupA rows k <;> rfl

/-- Starting a flush (swapping in a fresh mutable row store) is
observationally transparent and preserves the invariant. -/
theorem good_startFlush (t : Tablet) (r : List (Nat × Nat)) (h : Good t r) :
    Good t.startFlush r := by
  obtain ⟨tm, td, trw, tw⟩ := t
  cases trw with
  | some c => exact h
  | none =>
    refine ⟨?_, ?_, ?_, ?_⟩
    · intro k
      have hold := h.read_eq k
      rw [Tablet.read_mk_none] at hold
      show Tablet.read ⟨[], td, some ⟨.swapped, [Store.mem tm], [], [], []⟩, tw⟩ k = lookupA r k
      rw [Tablet.read_mk_some]
      cases hmk : lookupA tm k with
      | some w =>
        have h1 := h.uniq k
        rw [ownersCount_mk_none, hmk] at h1
        have hd0 : countS td k = 0 := by simp [cnt1] at h1; omega
        have hfd := (countS_eq_zero_iff _ _).mp hd0
        simp only [hmk] at hold
        simp [lookupA, hfd, firstSomeS_single_mem, hmk]
        exact hold
      | none =>
        simp only [hmk] at hold
        cases hfd : firstSomeS td k with
        | some v =>
          simp only [hfd] at hold
          simp [lookupA, hfd]
          exact hold
        | none =>
          simp only [hfd] at hold
          simp [lookupA, hfd, firstSomeS_single_mem, hmk]
          exact hold
    · intro k
      have h1 := h.uniq k
      rw [ownersCount_mk_none] at h1
      show ownersCount ⟨[], td, some ⟨.swapped, [Store.mem tm], [], [], []⟩, tw⟩ k ≤ 1
      simp only [ownersCount_mk_some]
      simp [lookupA, cnt1, countS, Store.readS]
      simp [cnt1] at h1
      omega
    · intro c hc
      have := (Option.some.inj hc).symm
      subst this
      exact ⟨rfl, rfl, rfl⟩
    · exact h.wal_ok

/-- Starting a compaction (selecting all on-disk row sets as inputs) is
observationally transparent and preserves the invariant. -/
theorem good_startCompact (t : Tablet) (r : List (Nat × Nat)) (h : Good t r) :
    Good t.startCompact r := by
  obtain ⟨tm, td, trw, tw⟩ := t
  cases trw with
  | some c => exact h
  | none =>
    refine ⟨?_, ?_, ?_, ?_⟩
    · intro k
      have hold := h.read_eq k
      rw [Tablet.read_mk_none] at hold
      show Tablet.read ⟨tm, [], some ⟨.swapped, td, [], [], []⟩, tw⟩ k = lookupA r k
      rw [Tablet.read_mk_some]
      cases hmk : lookupA tm k with
      | some w =>
        simp only [hmk] at hold
        simpa [hmk] using hold
      | none =>
        simp only [hmk] at hold
        cases hfd : firstSomeS td k with
        | some v =>
          simp only [hfd] at hold
          simpa [hmk, firstSomeS, hfd] using hold
        | none =>
          simp only [hfd] at hold
          simpa [hmk, firstSomeS, hfd] using hold
    · intro k
      have h1 := h.uniq k
      rw [ownersCount_mk_none] at h1
      show ownersCount ⟨tm, [], some ⟨.swapped, td, [], [], []⟩, tw⟩ k ≤ 1
      simp only [ownersCount_mk_some]
      simp [countS]
      omega
    · intro c hc
      have := (Option.some.inj hc).symm
      subst this
      exact ⟨rfl, rfl, rfl⟩
    · exact h.wal_ok

/-- Each phase transition of the flush/compaction state machine —
snapshot, base-data write, duplicating-row-set install, missed-delta
reapplication, final row-set swap — is observationally transparent and
preserves the invariant. -/
theorem good_stepRewrite (t : Tablet) (r : List (Nat × Nat)) (h : Good t r) :
    Good t.stepRewrite r := by
  obtain ⟨tm, td, trw, tw⟩ := t
  cases trw with
  | none => exact h
  | some c =>
    rcases c with ⟨p, cins, csn, cmi, cdu⟩
    have hcinv := h.ctx ⟨p, cins, csn, cmi, cdu⟩ rfl
    cases p with
    | swapped =>
      obtain ⟨hs, hmi, hdu⟩ := hcinv
      simp only at hs hmi hdu
      subst hs; subst hmi; subst hdu
      refine ⟨?_, ?_, ?_, ?_⟩
      · intro k
        have hold := h.read_eq k
        rw [Tablet.read_mk_some] at hold
        show Tablet.read ⟨tm, td, some ⟨.snapped, cins, snapAll cins, [], []⟩, tw⟩ k = lookupA r k
        rw [Tablet.read_mk_some]
        exact hold
      · intro k
        have h1 := h.uniq k
        simp only [ownersCount_mk_some] at h1
        show ownersCount ⟨tm, td, some ⟨.snapped, cins, snapAll cins, [], []⟩, tw⟩ k ≤ 1
        simp only [ownersCount_mk_some]
        exact h1
      · intro c' hc'
        have := (Option.some.inj hc').symm
        subst this
        refine ⟨rfl, ?_⟩
        intro k
        show applyDeltasK k (lookupA (snapAll cins) k) ([] ++ []) = firstSomeS cins k
        rw [show ([] ++ [] : List DeltaOp) = [] from rfl]
        exact lookupA_snapAll cins k
      · exact h.wal_ok
    | snapped =>
      obtain ⟨hdu, hcoh⟩ := hcinv
      refine ⟨?_, ?_, ?_, ?_⟩
      · intro k
        have hold := h.read_eq k
        rw [Tablet.read_mk_some] at hold
        show Tablet.read ⟨tm, td, some ⟨.baseWritten, cins, csn, cmi, cdu⟩, tw⟩ k = lookupA r k
        rw [Tablet.read_mk_some]
        exact hold
      · intro k
        have h1 := h.uniq k
        simp only [ownersCount_mk_some] at h1
        show ownersCount ⟨tm, td, some ⟨.baseWritten, cins, csn, cmi, cdu⟩, tw⟩ k ≤ 1
        simp only [ownersCount_mk_some]
        exact h1
      · intro c' hc'
        have := (Option.some.inj hc').symm
        subst this
        exact ⟨hdu, hcoh⟩
      · exact h.wal_ok
    | baseWritten =>
      obtain ⟨hdu, hcoh⟩ := hcinv
      refine ⟨?_, ?_, ?_, ?_⟩
      · intro k
        have hold := h.read_eq k
        rw [Tablet.read_mk_some] at hold
        show Tablet.read ⟨tm, td, some ⟨.dupInstalled, cins, csn, cmi, cdu⟩, tw⟩ k = lookupA r k
        rw [Tablet.read_mk_some]
        exact hold
      · intro k
        have h1 := h.uniq k
        simp only [ownersCount_mk_some] at h1
        show ownersCount ⟨tm, td, some ⟨.dupInstalled, cins, csn, cmi, cdu⟩, tw⟩ k ≤ 1
        simp only [ownersCount_mk_some]
        exact h1
      · intro c' hc'
        have := (Option.some.inj hc').symm
        subst this
        exact hcoh
      · exact h.wal_ok
    | dupInstalled =>
      refine ⟨?_, ?_, ?_, ?_⟩
      · intro k
        have hold := h.read_eq k
        rw [Tablet.read_mk_some] at hold
        show Tablet.read ⟨tm, td, some ⟨.missedReapplied, cins, csn, cmi, cdu⟩, tw⟩ k = lookupA r k
        rw [Tablet.read_mk_some]
        exact hold
      · intro k
        have h1 := h.uniq k
        simp only [ownersCount_mk_some] at h1
        show ownersCount ⟨tm, td, some ⟨.missedReapplied, cins, csn, cmi, cdu⟩, tw⟩ k ≤ 1
        simp only [ownersCount_mk_some]
        exact h1
      · intro c' hc'
        have := (Option.some.inj hc').symm
        subst this
        exact hcinv
      · exact h.wal_ok
    | missedReapplied =>
      have hnewread : ∀ k, (Store.disk ⟨csn, cmi ++ cdu⟩ : Store).readS k = firstSomeS cins k := by
        intro k
        simp only [Store.readS, DRS.read]
        exact hcinv k
      refine ⟨?_, ?_, ?_, ?_⟩
      · intro k
        have hold := h.read_eq k
        rw [Tablet.read_mk_some] at hold
        show Tablet.read ⟨tm, td ++ [Store.disk ⟨csn, cmi ++ cdu⟩], none, tw⟩ k = lookupA r k
        rw [Tablet.read_mk_none]
        cases hmk : lookupA tm k with
        | some w =>
          simp only [hmk] at hold ⊢
          exact hold
        | none =>
          simp only [hmk] at hold ⊢
          rw [firstSomeS_append]
          cases hfd : firstSomeS td k with
          | some v =>
            simp only [hfd] at hold ⊢
            exact hold
          | none =>
            simp only [hfd] at hold ⊢
            have hone : firstSomeS [Store.disk ⟨csn, cmi ++ cdu⟩] k = firstSomeS cins k := by
              simp only [firstSomeS, hnewread k]
              cases firstSomeS cins k <;> rfl
            rw [hone]
            cases hci : firstSomeS cins k with
            | some v =>
              simp only [hci] at hold ⊢
              exact hold
            | none =>
              simp only [hci] at hold ⊢
              exact hold
      · intro k
        have h1 := h.uniq k
        simp only [ownersCount_mk_some] at h1
        show ownersCount ⟨tm, td ++ [Store.disk ⟨csn, cmi ++ cdu⟩], none, tw⟩ k ≤ 1
        rw [ownersCount_mk_none, countS_append]
        have hle : countS [Store.disk ⟨csn, cmi ++ cdu⟩] k ≤ countS cins k := by
          simp only [countS, hnewread k]
          have := cnt1_firstSomeS_le_countS cins k
          omega
        omega
      · intro c' hc'
        exact Option.noConfusion hc'
      · exact h.wal_ok

/-- One event of any kind preserves the refinement invariant. -/
theorem good_step (t : Tablet) (r : List (Nat × Nat)) (e : Ev) (h : Good t r) :
    Good (t.stepEv e) (refEvStep r e) := by
  cases e with
  | write o =>
    cases o with
    | insert k v => exact good_insert t r k v h
    | update k v => exact good_applyMut t r (.upd k v) h
    | delete k => exact good_applyMut t r (.del k) h
    | reinsert k => exact h
  | startFlush => exact good_startFlush t r h
  | startCompact => exact good_startCompact t r h
  | stepRewrite => exact good_stepRewrite t r h

theorem good_empty : Good Tablet.empty [] := by
  refine ⟨?_, ?_, ?_, ?_⟩
  · intro k; rfl
  · intro k
    show ownersCount ⟨[], [], none, []⟩ k ≤ 1
    rw [ownersCount_mk_none]
    simp [lookupA, countS, cnt1]
  · intro c hc; exact Option.noConfusion hc
  · rfl

theorem good_foldl (evs : List Ev) :
    ∀ t r, Good t r → Good (evs.foldl Tablet.stepEv t) (evs.foldl refEvStep r) := by
  induction evs with
  | nil => intro t r h; exact h
  | cons e rest ih => intro t r h; exact ih _ _ (good_step t r e h)

/-- Every reachable tablet state satisfies the refinement invariant
relative to the flat reference run of the same events. -/
theorem good_run (evs : List Ev) : Good (runEvents evs) (refRun evs) :=
  good_foldl evs Tablet.empty [] good_empty

/-! ## Claim C1 and C2: transparency and replay idempotence -/

/-- The client operations of an event sequence, in order. -/
def opsOf (evs : List Ev) : List Op :=
  evs.filterMap (fun e =>
    match e with
    | .write o => some o
    | _ => none)

/-- Reference run of a bare operation sequence on the flat map. -/
def refOps (os : List Op) : List (Nat × Nat) :=
  os.foldl refStep []

theorem refRun_aux (evs : List Ev) :
    ∀ m, evs.foldl refEvStep m = (opsOf evs).foldl refStep m := by
  induction evs with
  | nil => intro m; rfl
  | cons e rest ih =>
    intro m
    cases e <;> simp [opsOf, refEvStep, List.filterMap_cons, ih]

theorem refRun_eq_refOps (evs : List Ev) : refRun evs = refOps (opsOf evs) :=
  refRun_aux evs []

/-- C1: flush/compaction is observationally transparent.  For any event
sequence interleaving client INSERT/UPDATE/DELETE operations with flush
or compaction steps at any boundary of the lifecycle state machine
(mem-store swap, MVCC snapshot, base-data write, duplicating-row-set
install, missed-delta reapplication, final row-set swap), reading every
row afterwards yields exactly the values of the flat reference run of
the same operations with no flush/compaction at all, and replaying the
write-ahead log after a restart reproduces those same values. -/
theorem flush_compaction_observationally_transparent (evs : List Ev) (k : Nat) :
    (runEvents evs).read k = lookupA (refOps (opsOf evs)) k ∧
    lookupA (rebuild (runEvents evs).wal).1 k = lookupA (refOps (opsOf evs)) k := by
  have hg := good_run evs
  have he := refRun_eq_refOps evs
  constructor
  · rw [← he]
    exact hg.read_eq k
  · rw [hg.wal_ok, ← he]

/-- C2: crash-and-replay recovery is idempotent.  For any tablet state
produced by a sequence of events (including writes injected during a
flush), replaying its write-ahead log rebuilds exactly the reference row
state while re-logging the same log, so a second replay of the re-logged
log yields the identical result. -/
theorem replay_twice_idempotent (evs : List Ev) :
    rebuild ((rebuild (runEvents evs).wal).2) = rebuild (runEvents evs).wal ∧
    (rebuild (runEvents evs).wal).1 = refRun evs := by
  have h2 := (good_run evs).wal_ok
  constructor
  · rw [h2]
    exact h2
  · rw [h2]

/-! ## The Write RPC: mutation framing codec and per-row application -/

/-- Little-endian 4-byte encoding of a length prefix. -/
def leBytes32 (n : Nat) : List Nat :=
  [n % 256, n / 256 % 256, n / 2 ^ 16 % 256, n / 2 ^ 24 % 256]

/-- Read a little-endian 4-byte integer off the front of a buffer. -/
def readLE32 : List Nat → Option (Nat × List Nat)
  | a :: b :: c :: d :: rest => some (a + 256 * b + 2 ^ 16 * c + 2 ^ 24 * d, rest)
  | _ => none

/-- Modelled from the spec: split the encoded mutations buffer into one
length-prefixed RowChangeList slice per mutated row.  Fails (whole-batch
InvalidMutation) when the length prefix is too short to read or the
declared length exceeds the buffer. -/
def sliceMutations : Nat → List Nat → Option (List (List Nat))
  | 0, _ => some []
  | n + 1, buf =>
    match readLE32 buf with
    | none => none
    | some (len, rest) =>
      if len ≤ rest.length then
        match sliceMutations n (rest.drop len) with
        | some ps => some (rest.take len :: ps)
        | none => none
      else none

/-- A decoded RowChangeList. -/
inductive Mutation : Type
  | mUpdate (v : Nat)
  | mDelete
  | mReinsert
deriving DecidableEq, Repr

/-- Modelled from the spec: decode one RowChangeList payload — a type tag
(1 = UPDATE, 2 = DELETE, 3 = REINSERT), for UPDATE followed by the new
value.  An unrecognized tag is a per-row decode error; a REINSERT is
structurally valid for the codec (it is the apply path that rejects it). -/
def decodeRCL : List Nat → Except RowErr Mutation
  | 1 :: rest =>
    match readLE32 rest with
    | some (v, _) => .ok (.mUpdate v)
    | none => .error .malformedChange
  | 2 :: _ => .ok .mDelete
  | 3 :: _ => .ok .mReinsert
  | _ => .error .badTypeEnum

/-- Apply one decoded mutation row through the tablet's apply path. -/
def applyMutRow (t : Tablet) (k : Nat) (payload : List Nat) : Tablet × Option RowErr :=
  match decodeRCL payload with
  | .error e => (t, some e)
  | .ok (.mUpdate v) => t.applyOp (.update k v)
  | .ok .mDelete => t.applyOp (.delete k)
  | .ok .mReinsert => t.applyOp (.reinsert k)

structure WriteReq : Type where
  inserts : List (Nat × Nat)
  mutKeys : List Nat
  encMut : List Nat
deriving DecidableEq, Repr

inductive BatchErr : Type
  | invalidMutation
deriving DecidableEq, Repr

structure WriteResp : Type where
  batchErr : Option BatchErr
  perRow : List (Nat × RowErr)
deriving DecidableEq, Repr

/-- Apply the insert rows of a batch in order, collecting per-row errors
(an error never aborts sibling rows). -/
def processInserts (t : Tablet) (i : Nat) : List (Nat × Nat) → Tablet × List (Nat × RowErr)
  | [] => (t, [])
  | (k, v) :: rest =>
    match t.applyOp (.insert k v) with
    | (t', none) => processInserts t' (i + 1) rest
    | (t', some e) =>
      let p := processInserts t' (i + 1) rest
      (p.1, (i, e) :: p.2)

/-- Apply the mutation rows of a batch in order, collecting per-row
errors. -/
def processMutRows (t : Tablet) (i : Nat) : List (Nat × List Nat) → Tablet × List (Nat × RowErr)
  | [] => (t, [])
  | (k, pay) :: rest =>
    match applyMutRow t k pay with
    | (t', none) => processMutRows t' (i + 1) rest
    | (t', some e) =>
      let p := processMutRows t' (i + 1) rest
      (p.1, (i, e) :: p.2)

/-- Modelled from the spec: the Write RPC — validate the encoded
mutations framing first (a framing failure is a whole-batch
InvalidMutation aborting the call before any row is touched), then apply
inserts and mutations row by row, collecting per-row errors. -/
def Tablet.write (t : Tablet) (req : WriteReq) : Tablet × WriteResp :=
  match sliceMutations req.mutKeys.length req.encMut with
  | none => (t, ⟨some .invalidMutation, []⟩)
  | some slices =>
    let pi := processInserts t 0 req.inserts
    let pm := processMutRows pi.1 req.inserts.length (req.mutKeys.zip slices)
    (pm.1, ⟨none, pi.2 ++ pm.2⟩)

/-- Length-prefix framing of one RowChangeList. -/
def encodeChange (payload : List Nat) : List Nat :=
  leBytes32 payload.length ++ payload

def encUpdate (v : Nat) : List Nat := encodeChange (1 :: leBytes32 v)

def encDelete : List Nat := encodeChange [2]

def encReinsert (rowBytes : List Nat) : List Nat := encodeChange (3 :: rowBytes)

theorem readLE32_leBytes32 (n : Nat) (rest : List Nat) (h : n < 2 ^ 32) :
    readLE32 (leBytes32 n ++ rest) = some (n, rest) := by
  simp only [leBytes32, List.cons_append, List.nil_append, readLE32, Option.some.injEq,
    Prod.mk.injEq]
  constructor
  · omega
  · trivial

/-! ## Claim C3: the concrete insert/update/delete scenario -/

def c3Req1 : WriteReq := ⟨[(1, 1), (2, 2), (3, 3)], [], []⟩

def c3Step1 := Tablet.empty.write c3Req1

def c3Req2 : WriteReq := ⟨[], [1, 2, 3], encUpdate 2 ++ encUpdate 3 ++ encUpdate 4⟩

def c3Step2 := c3Step1.1.write c3Req2

def c3Req3 : WriteReq := ⟨[], [1], encDelete⟩

def c3Step3 := c3Step2.1.write c3Req3

def c3Req4 : WriteReq := ⟨[], [1], encUpdate 9⟩

def c3Step4 := c3Step3.1.write c3Req4

/-- The tablet after the scenario's writes followed by a full flush. -/
def c3Flushed : Tablet :=
  ((((c3Step4.1.startFlush).stepRewrite).stepRewrite).stepRewrite).stepRewrite.stepRewrite

def c3Final := rebuild c3Flushed.wal

/-- C3: inserting keys 1,2,3 with values 1,2,3, updating them to 2,3,4,
deleting key 1, then updating key 1 again yields NotFound as a per-row
error for that last update only — every other batch succeeds with no
whole-batch and no per-row error — and after a flush and a
restart-with-log-replay the live rows are exactly key 2 with value 3 and
key 3 with value 4. -/
theorem insert_mutate_delete_scenario :
    c3Step1.2 = ⟨none, []⟩ ∧
    c3Step2.2 = ⟨none, []⟩ ∧
    c3Step3.2 = ⟨none, []⟩ ∧
    c3Step4.2 = ⟨none, [(0, RowErr.notFound)]⟩ ∧
    c3Final.1 = [(2, 3), (3, 4)] := by
  decide

/-! ## Claim C4: duplicate-key inserts -/

theorem processInserts_append (xs : List (Nat × Nat)) :
    ∀ (t : Tablet) (i : Nat) (ys : List (Nat × Nat)),
      processInserts t i (xs ++ ys) =
        ((processInserts (processInserts t i xs).1 (i + xs.length) ys).1,
         (processInserts t i xs).2 ++
           (processInserts (processInserts t i xs).1 (i + xs.length) ys).2) := by
  induction xs with
  | nil => intro t i ys; simp [processInserts]
  | cons p rest ih =>
    intro t i ys
    obtain ⟨k, v⟩ := p
    cases h : Tablet.applyOp t (.insert k v) with
    | mk t' e =>
      cases e with
      | none =>
        have hl : processInserts t i (((k, v) :: rest) ++ ys) =
            processInserts t' (i + 1) (rest ++ ys) := by
          simp only [List.cons_append, processInserts, h, List.append_eq]
        have hr : processInserts t i ((k, v) :: rest) = processInserts t' (i + 1) rest := by
          simp only [processInserts, h]
        rw [hl, hr, ih t' (i + 1) ys]
        have harith : i + 1 + rest.length = i + (rest.length + 1) := by omega
        simp [harith]
      | some e' =>
        have hl : processInserts t i (((k, v) :: rest) ++ ys) =
            ((processInserts t' (i + 1) (rest ++ ys)).1,
             (i, e') :: (processInserts t' (i + 1) (rest ++ ys)).2) := by
          simp only [List.cons_append, processInserts, h, List.append_eq]
        have hr : processInserts t i ((k, v) :: rest) =
            ((processInserts t' (i + 1) rest).1, (i, e') :: (processInserts t' (i + 1) rest).2) := by
          simp only [processInserts, h]
        rw [hl, hr, ih t' (i + 1) ys]
        have harith : i + 1 + rest.length = i + (rest.length + 1) := by omega
        simp [harith]

theorem applyOp_insert_read_other (t : Tablet) (k' v' k : Nat) (hne : k' ≠ k) :
    (t.applyOp (.insert k' v')).1.read k = t.read k := by
  obtain ⟨tm, td, trw, tw⟩ := t
  rw [Tablet.applyOp]
  cases hr : Tablet.read ⟨tm, td, trw, tw⟩ k' with
  | some w => rfl
  | none =>
    show Tablet.read ⟨tm ++ [(k', v')], td, trw, tw⟩ k = Tablet.read ⟨tm, td, trw, tw⟩ k
    rw [Tablet.read_def, Tablet.read_def, lookupA_append_other tm k' k v' hne]

/-- Insert batches never modify the value of a key that is already live. -/
theorem processInserts_preserves_read (rows : List (Nat × Nat)) :
    ∀ (t : Tablet) (i k w : Nat), t.read k = some w →
      (processInserts t i rows).1.read k = some w := by
  induction rows with
  | nil => intro t i k w h; exact h
  | cons p rest ih =>
    intro t i k w h
    obtain ⟨k', v'⟩ := p
    by_cases hne : k' = k
    · subst hne
      have ha : Tablet.applyOp t (.insert k' v') = (t, some .alreadyPresent) := by
        rw [Tablet.applyOp, h]
      simp only [processInserts, ha]
      exact ih t (i + 1) k' w h
    · cases ha : t.applyOp (.insert k' v') with
      | mk t' e =>
        have hrd : t'.read k = t.read k := by
          have hx := applyOp_insert_read_other t k' v' k hne
          rw [ha] at hx
          exact hx
        cases e with
        | none =>
          simp only [processInserts, ha]
          exact ih t' (i + 1) k w (by rw [hrd]; exact h)
        | some e' =>
          simp only [processInserts, ha]
          exact ih t' (i + 1) k w (by rw [hrd]; exact h)

/-- C4: an insert whose primary key is already live when its batch
position is reached is reported as a per-row AlreadyPresent at exactly
that position, leaves the existing row's value untouched (no silent
overwrite, also after the rest of the batch), hands the sibling rows
exactly the state they would have seen without it, and produces no
whole-batch error. -/
theorem duplicate_insert_already_present (t : Tablet) (i : Nat) (pre : List (Nat × Nat))
    (k v w : Nat) (rest : List (Nat × Nat))
    (hlive : (processInserts t i pre).1.read k = some w) :
    processInserts t i (pre ++ (k, v) :: rest) =
      ((processInserts (processInserts t i pre).1 (i + pre.length + 1) rest).1,
       (processInserts t i pre).2 ++
         (i + pre.length, RowErr.alreadyPresent) ::
           (processInserts (processInserts t i pre).1 (i + pre.length + 1) rest).2) ∧
    (processInserts t i (pre ++ (k, v) :: rest)).1.read k = some w ∧
    (Tablet.write t ⟨pre ++ (k, v) :: rest, [], []⟩).2.batchErr = none := by
  have hsplit := processInserts_append pre t i ((k, v) :: rest)
  have hdup : Tablet.applyOp (processInserts t i pre).1 (.insert k v) =
      ((processInserts t i pre).1, some .alreadyPresent) := by
    rw [Tablet.applyOp, hlive]
  have hhead : processInserts (processInserts t i pre).1 (i + pre.length) ((k, v) :: rest) =
      ((processInserts (processInserts t i pre).1 (i + pre.length + 1) rest).1,
       (i + pre.length, RowErr.alreadyPresent) ::
         (processInserts (processInserts t i pre).1 (i + pre.length + 1) rest).2) := by
    simp only [processInserts, hdup]
  have hmain := hsplit.trans (by rw [hhead])
  refine ⟨hmain, ?_, ?_⟩
  · rw [hmain]
    exact processInserts_preserves_read rest _ _ k w hlive
  · rw [Tablet.write]
    simp [sliceMutations]

/-- Concrete tablet holding key 1234 with value 5678 for the C4 witness. -/
def c4T : Tablet := (Tablet.empty.write ⟨[(1234, 5678)], [], []⟩).1

theorem duplicate_insert_already_present_witness :
    (processInserts c4T 0 [(1, 1), (2, 1)]).1.read 1234 = some 5678 ∧
    (processInserts c4T 0 ([(1, 1), (2, 1)] ++ (1234, 1) :: []) =
      ((processInserts (processInserts c4T 0 [(1, 1), (2, 1)]).1 (0 + [(1, 1), (2, 1)].length + 1) []).1,
       (processInserts c4T 0 [(1, 1), (2, 1)]).2 ++
         (0 + [(1, 1), (2, 1)].length, RowErr.alreadyPresent) ::
           (processInserts (processInserts c4T 0 [(1, 1), (2, 1)]).1 (0 + [(1, 1), (2, 1)].length + 1) []).2) ∧
    (processInserts c4T 0 ([(1, 1), (2, 1)] ++ (1234, 1) :: [])).1.read 1234 = some 5678 ∧
    (Tablet.write c4T ⟨[(1, 1), (2, 1)] ++ (1234, 1) :: [], [], []⟩).2.batchErr = none) :=
  ⟨by decide, duplicate_insert_already_present c4T 0 [(1, 1), (2, 1)] 1234 1 5678 [] (by decide)⟩

/-! ## Claim C5: malformed mutation buffers -/

/-- C5 counterexample: a buffer whose framing is well-formed but whose
type tag (0x78, the character 'x') is unrecognized does NOT fail with a
whole-batch InvalidMutation — the bad tag is reported per-row and the
batch carries no whole-batch error, exactly as the test driver asserts. -/
theorem invalid_tag_not_whole_batch :
    (Tablet.empty.write ⟨[], [0], [1, 0, 0, 0, 120]⟩).2.batchErr ≠ some BatchErr.invalidMutation ∧
    (Tablet.empty.write ⟨[], [0], [1, 0, 0, 0, 120]⟩).2 =
      ⟨none, [(0, RowErr.badTypeEnum)]⟩ := by
  decide

/-- C5 amended: a Write whose encoded mutations buffer fails framing —
length prefix too short to read, or declared length exceeding the
buffer — fails with InvalidMutation as a whole-batch error, aborting the
call before any row is touched; an unrecognized mutation type tag passes
framing and is instead reported as a per-row error leaving the tablet
unchanged. -/
theorem mutation_framing_errors_whole_batch (t : Tablet) (req : WriteReq)
    (k : Nat) (pay : List Nat) :
    (sliceMutations req.mutKeys.length req.encMut = none →
      t.write req = (t, ⟨some BatchErr.invalidMutation, []⟩)) ∧
    (decodeRCL pay = .error RowErr.badTypeEnum →
      applyMutRow t k pay = (t, some RowErr.badTypeEnum)) := by
  constructor
  · intro h
    rw [Tablet.write, h]
  · intro h
    rw [applyMutRow, h]

theorem mutation_framing_errors_whole_batch_witness :
    (sliceMutations ([(5 : Nat)].length) [1] = none ∧
      Tablet.empty.write ⟨[], [5], [1]⟩ = (Tablet.empty, ⟨some BatchErr.invalidMutation, []⟩)) ∧
    (sliceMutations ([(5 : Nat)].length) [255, 0, 0, 0] = none ∧
      Tablet.empty.write ⟨[], [5], [255, 0, 0, 0]⟩ =
        (Tablet.empty, ⟨some BatchErr.invalidMutation, []⟩)) ∧
    (decodeRCL [120] = .error RowErr.badTypeEnum ∧
      applyMutRow Tablet.empty 0 [120] = (Tablet.empty, some RowErr.badTypeEnum)) :=
  ⟨⟨by decide,
     (mutation_framing_errors_whole_batch Tablet.empty ⟨[], [5], [1]⟩ 0 []).1 (by decide)⟩,
   ⟨by decide,
     (mutation_framing_errors_whole_batch Tablet.empty ⟨[], [5], [255, 0, 0, 0]⟩ 0 []).1
       (by decide)⟩,
   ⟨rfl,
     (mutation_framing_errors_whole_batch Tablet.empty ⟨[], [], []⟩ 0 [120]).2 rfl⟩⟩

/-! ## Claim C6: client-submitted REINSERT -/

/-- C6: a client-submitted REINSERT is structurally valid for the codec
(the decode succeeds for every payload body), but the apply path rejects
it: the Write call carries no whole-batch error, the REINSERT row gets a
per-row rejection, the tablet — including its write-ahead log — is
unchanged, and hence after restart and replay no row exists for a key
that had none. -/
theorem client_reinsert_rejected (t : Tablet) (r : List (Nat × Nat)) (h : Good t r)
    (k : Nat) (rowBytes : List Nat) (hlen : rowBytes.length + 1 < 2 ^ 32) :
    decodeRCL (3 :: rowBytes) = Except.ok Mutation.mReinsert ∧
    t.write ⟨[], [k], encReinsert rowBytes⟩ = (t, ⟨none, [(0, RowErr.reinsertNotAllowed)]⟩) ∧
    (t.read k = none → lookupA (rebuild t.wal).1 k = none) := by
  refine ⟨rfl, ?_, ?_⟩
  · have h1 : readLE32 (leBytes32 (rowBytes.length + 1) ++ (3 :: rowBytes)) =
        some (rowBytes.length + 1, 3 :: rowBytes) := readLE32_leBytes32 _ _ hlen
    have hle : rowBytes.length + 1 ≤ (3 :: rowBytes).length := by simp
    have hdrop : (3 :: rowBytes).drop (rowBytes.length + 1) = [] := by
      simp [List.drop_eq_nil_iff]
    have htake : (3 :: rowBytes).take (rowBytes.length + 1) = 3 :: rowBytes := by
      have hlen2 : (3 :: rowBytes).length = rowBytes.length + 1 := rfl
      rw [← hlen2, List.take_length]
    have hslice : sliceMutations 1 (encReinsert rowBytes) = some [3 :: rowBytes] := by
      show sliceMutations (0 + 1) (leBytes32 ((3 :: rowBytes).length) ++ (3 :: rowBytes)) = _
      simp only [sliceMutations, List.length_cons, h1, hle, if_true, hdrop, htake]
      rw [if_pos (Nat.le_refl _)]
    rw [Tablet.write]
    rw [show (⟨[], [k], encReinsert rowBytes⟩ : WriteReq).mutKeys.length = 1 from rfl]
    rw [hslice]
    have happ : applyMutRow t k (3 :: rowBytes) = (t, some RowErr.reinsertNotAllowed) := rfl
    simp [processInserts, processMutRows, happ]
  · intro hrn
    rw [h.wal_ok]
    rw [← h.read_eq k]
    exact hrn

theorem client_reinsert_rejected_witness :
    decodeRCL (3 :: [0, 0, 0]) = Except.ok Mutation.mReinsert ∧
    Tablet.empty.write ⟨[], [7], encReinsert [0, 0, 0]⟩ =
      (Tablet.empty, ⟨none, [(0, RowErr.reinsertNotAllowed)]⟩) ∧
    (Tablet.empty.read 7 = none → lookupA (rebuild Tablet.empty.wal).1 7 = none) :=
  client_reinsert_rejected Tablet.empty [] good_empty 7 [0, 0, 0] (by decide)

/-! ## Claim C7: scanner lifecycle -/

structure ScanMgr : Type where
  nextId : Nat
  scanners : List (Nat × List (Nat × Nat))
deriving DecidableEq, Repr

inductive ScanErr : Type
  | scannerExpired
deriving DecidableEq, Repr

def lookupScanner (m : ScanMgr) (id : Nat) : Option (List (Nat × Nat)) :=
  lookupA m.scanners id

/-- Modelled from the spec: open a scan — a scan with no matching rows
returns no server-side scanner id and registers nothing; otherwise a
fresh id is allocated and registered with the undrained rows. -/
def openScan (m : ScanMgr) (results : List (Nat × Nat)) : ScanMgr × Option Nat :=
  match results with
  | [] => (m, none)
  | _ :: _ => (⟨m.nextId + 1, m.scanners ++ [(m.nextId, results)]⟩, some m.nextId)

/-- Modelled from the spec: continue a scan — an id unknown to the
scanner manager is ScannerExpired; otherwise up to `b + 1` rows are
returned and the scanner is removed automatically once all rows are
drained. -/
def continueScan (m : ScanMgr) (id : Nat) (b : Nat) :
    Except ScanErr (ScanMgr × List (Nat × Nat)) :=
  match lookupScanner m id with
  | none => .error .scannerExpired
  | some rs =>
    if (rs.drop (b + 1)).isEmpty then .ok (⟨m.nextId, delA m.scanners id⟩, rs.take (b + 1))
    else .ok (⟨m.nextId, updA m.scanners id (rs.drop (b + 1))⟩, rs.take (b + 1))

/-- One client continue call during draining (no-op on error). -/
def drainStep (id b : Nat) (m : ScanMgr) : ScanMgr :=
  match continueScan m id b with
  | .ok (m', _) => m'
  | .error _ => m

def drainN (id b : Nat) : Nat → ScanMgr → ScanMgr
  | 0, m => m
  | n + 1, m => drainN id b n (drainStep id b m)

theorem drainStep_none (id b : Nat) (m : ScanMgr) (h : lookupScanner m id = none) :
    lookupScanner (drainStep id b m) id = none := by
  rw [drainStep, continueScan, h]
  exact h

theorem drainN_none (id b : Nat) :
    ∀ (n : Nat) (m : ScanMgr), lookupScanner m id = none →
      lookupScanner (drainN id b n m) id = none := by
  intro n
  induction n with
  | zero => intro m h; exact h
  | succ n ih =>
    intro m h
    exact ih (drainStep id b m) (drainStep_none id b m h)

theorem drainN_drains (id b : Nat) :
    ∀ (n : Nat) (m : ScanMgr) (rs : List (Nat × Nat)),
      lookupScanner m id = some rs → rs.length ≤ n → 1 ≤ n →
      lookupScanner (drainN id b n m) id = none := by
  intro n
  induction n with
  | zero => intro m rs hl hn h1; omega
  | succ n ih =>
    intro m rs hl hn _
    by_cases hde : (rs.drop (b + 1)).isEmpty
    · have hstep : lookupScanner (drainStep id b m) id = none := by
        simp only [drainStep, continueScan, hl, if_pos hde]
        exact lookupA_delA_self m.scanners id
      exact drainN_none id b n (drainStep id b m) hstep
    · have hstep : lookupScanner (drainStep id b m) id = some (rs.drop (b + 1)) := by
        simp only [drainStep, continueScan, hl, if_neg hde]
        show lookupA (updA m.scanners id (rs.drop (b + 1))) id = _
        rw [lookupA_updA_self, show lookupA m.scanners id = some rs from hl]
        rfl
      have hlen : (rs.drop (b + 1)).length ≤ n := by
        rw [List.length_drop]
        omega
      have hpos : 1 ≤ n := by
        have : ¬ (rs.drop (b + 1)).length = 0 := by
          intro hz
          exact hde (List.isEmpty_iff_length_eq_zero.mpr hz)
        omega
      exact ih (drainStep id b m) (rs.drop (b + 1)) hstep hlen hpos

/-- C7: a scan with no matching rows returns no scanner id and leaves the
manager untouched; a scan with results registers a fresh id that stays
resolvable while undrained and is removed automatically once the rows
are drained; continuing with an id unknown to the manager fails with
ScannerExpired. -/
theorem scanner_lifecycle (m : ScanMgr) (results : List (Nat × Nat)) (id b : Nat)
    (hfresh : lookupA m.scanners m.nextId = none) :
    openScan m [] = (m, none) ∧
    (results ≠ [] →
      (openScan m results).2 = some m.nextId ∧
      lookupScanner (openScan m results).1 m.nextId = some results ∧
      lookupScanner (drainN m.nextId b results.length (openScan m results).1) m.nextId =
        none) ∧
    (lookupScanner m id = none → continueScan m id b = .error .scannerExpired) := by
  refine ⟨rfl, ?_, ?_⟩
  · intro hne
    cases results with
    | nil => exact absurd rfl hne
    | cons p rest =>
      have hreg : lookupScanner (openScan m (p :: rest)).1 m.nextId = some (p :: rest) := by
        show lookupA (m.scanners ++ [(m.nextId, p :: rest)]) m.nextId = _
        exact lookupA_append_self m.scanners m.nextId (p :: rest) hfresh
      refine ⟨rfl, hreg, ?_⟩
      exact drainN_drains m.nextId b (p :: rest).length (openScan m (p :: rest)).1 (p :: rest)
        hreg (Nat.le_refl _) (by simp)
  · intro h
    rw [continueScan, h]

theorem scanner_lifecycle_witness :
    lookupA (⟨0, []⟩ : ScanMgr).scanners (⟨0, []⟩ : ScanMgr).nextId = none ∧
    ([((1 : Nat), (1 : Nat))] ≠ []) ∧
    (openScan ⟨0, []⟩ [] = (⟨0, []⟩, none) ∧
      (openScan ⟨0, []⟩ [(1, 1)]).2 = some 0 ∧
      lookupScanner (openScan ⟨0, []⟩ [(1, 1)]).1 0 = some [(1, 1)] ∧
      lookupScanner (drainN 0 0 [((1 : Nat), (1 : Nat))].length (openScan ⟨0, []⟩ [(1, 1)]).1) 0 =
        none ∧
      (lookupScanner ⟨0, []⟩ 9 = none → continueScan ⟨0, []⟩ 9 0 = .error .scannerExpired)) := by
  have h := scanner_lifecycle ⟨0, []⟩ [(1, 1)] 9 0 (by decide)
  refine ⟨by decide, by decide, h.1, ?_, ?_, ?_, h.2.2⟩
  · exact (h.2.1 (by decide)).1
  · exact (h.2.1 (by decide)).2.1
  · exact (h.2.1 (by decide)).2.2

/-! ## Claim C9: ChangeConfig sequence numbers -/

inductive ConfigErr : Type
  | invalidConfig
deriving DecidableEq, Repr

structure QuorumConfig : Type where
  seqno : Nat
  payload : List Nat
deriving DecidableEq, Repr

/-- Modelled from the spec: ChangeConfig — the new configuration is
installed only when its sequence number strictly exceeds the installed
configuration's; an equal or lower sequence number is rejected with
InvalidConfig regardless of the rest of the payload. -/
def changeConfig (cur req : QuorumConfig) : QuorumConfig × Option ConfigErr :=
  if cur.seqno < req.seqno then (req, none) else (cur, some .invalidConfig)

/-- C9: a ChangeConfig request whose sequence number is equal to or less
than the installed configuration's is rejected with InvalidConfig and
leaves the configuration unchanged, whatever the rest of its payload; a
strictly greater sequence number is accepted and installed. -/
theorem change_config_seqno_guard (cur req : QuorumConfig) :
    (req.seqno ≤ cur.seqno → changeConfig cur req = (cur, some ConfigErr.invalidConfig)) ∧
    (cur.seqno < req.seqno → changeConfig cur req = (req, none)) := by
  constructor
  · intro h
    rw [changeConfig, if_neg (by omega)]
  · intro h
    rw [changeConfig, if_pos h]

theorem change_config_seqno_guard_witness :
    (changeConfig ⟨1, []⟩ ⟨1, [9, 9]⟩ = (⟨1, []⟩, some ConfigErr.invalidConfig)) ∧
    (changeConfig ⟨1, []⟩ ⟨0, [3]⟩ = (⟨1, []⟩, some ConfigErr.invalidConfig)) ∧
    (changeConfig ⟨1, []⟩ ⟨2, []⟩ = (⟨2, []⟩, none)) :=
  ⟨(change_config_seqno_guard ⟨1, []⟩ ⟨1, [9, 9]⟩).1 (by decide),
   (change_config_seqno_guard ⟨1, []⟩ ⟨0, [3]⟩).1 (by decide),
   (change_config_seqno_guard ⟨1, []⟩ ⟨2, []⟩).2 (by decide)⟩

/-! ## Claim C10: clock monotonicity across recovery -/

inductive ClockEv : Type
  | advance (d : Nat)
  | commit
  | restart (ext : Nat)
deriving DecidableEq, Repr

structure ClockSrv : Type where
  clock : Nat
  committed : List Nat
deriving DecidableEq, Repr

def maxTs (l : List Nat) : Nat := l.foldl max 0

/-- Modelled from the spec: the clock collaborator and recovery — the
clock only advances while running; a commit stamps the current clock
value and durably logs it; a restart replays the logged timestamps and
resumes the clock at the external reading or strictly past every
replayed timestamp, whichever is later. -/
def ClockSrv.stepC (s : ClockSrv) : ClockEv → ClockSrv
  | .advance d => { s with clock := s.clock + d }
  | .commit => { clock := s.clock + 1, committed := s.committed ++ [s.clock] }
  | .restart ext => { clock := max ext (maxTs s.committed + 1), committed := s.committed }

def runClock (evs : List ClockEv) : ClockSrv :=
  evs.foldl ClockSrv.stepC ⟨0, []⟩

theorem foldl_max_le_init (l : List Nat) : ∀ a : Nat, a ≤ l.foldl max a := by
  induction l with
  | nil => intro a; exact Nat.le_refl a
  | cons x t ih =>
    intro a
    exact le_trans (le_max_left a x) (ih (max a x))

theorem le_maxTs (l : List Nat) : ∀ ts ∈ l, ts ≤ maxTs l := by
  rw [maxTs]
  generalize (0 : Nat) = a
  induction l generalizing a with
  | nil => intro ts h; cases h
  | cons x t ih =>
    intro ts h
    cases h with
    | head => exact le_trans (le_max_right a x) (foldl_max_le_init t (max a x))
    | tail _ hmem => exact ih (max a x) ts hmem

/-- C10: after any restart-and-replay cycle the clock reads strictly past
every timestamp committed before the restart; and given the external
clock's monotonicity across the restart, a reading taken immediately
before shutdown is less than or equal to a reading taken after replay. -/
theorem clock_monotone_across_restart (evs : List ClockEv) (ext : Nat) :
    (∀ ts ∈ (runClock evs).committed, ts < ((runClock evs).stepC (.restart ext)).clock) ∧
    ((runClock evs).clock ≤ ext →
      (runClock evs).clock ≤ ((runClock evs).stepC (.restart ext)).clock) := by
  constructor
  · intro ts hts
    have h1 := le_maxTs (runClock evs).committed ts hts
    show ts < max ext (maxTs (runClock evs).committed + 1)
    have h2 := le_max_right ext (maxTs (runClock evs).committed + 1)
    omega
  · intro h
    show (runClock evs).clock ≤ max ext (maxTs (runClock evs).committed + 1)
    have h2 := le_max_left ext (maxTs (runClock evs).committed + 1)
    omega

theorem clock_monotone_across_restart_witness :
    ((3 : Nat) ∈ (runClock [.commit, .advance 2, .commit]).committed ∧
      3 < ((runClock [.commit, .advance 2, .commit]).stepC (.restart 5)).clock) ∧
    ((runClock [.commit, .advance 2, .commit]).clock ≤ 5 ∧
      (runClock [.commit, .advance 2, .commit]).clock ≤
        ((runClock [.commit, .advance 2, .commit]).stepC (.restart 5)).clock) :=
  ⟨⟨by decide,
    (clock_monotone_across_restart [.commit, .advance 2, .commit] 5).1 3 (by decide)⟩,
   ⟨by decide,
    (clock_monotone_across_restart [.commit, .advance 2, .commit] 5).2 (by decide)⟩⟩

/-! ## Claim C8: AlterSchema read-time and write-time defaults -/

structure AColumn : Type where
  cid : Nat
  readD : Nat
  writeD : Nat
deriving DecidableEq, Repr

inductive AOp : Type
  | ins (k : Nat) (cells : List (Nat × Nat))
  | alter (expected : Nat) (c : AColumn)
deriving DecidableEq, Repr

structure ATablet : Type where
  cols : List AColumn
  version : Nat
  rows : List (Nat × List (Nat × Nat))
  wal : List AOp
deriving DecidableEq, Repr

def findCol : List AColumn → Nat → Option AColumn
  | [], _ => none
  | c :: t, cid => if c.cid = cid then some c else findCol t cid

/-- Modelled from the spec: materialize the stored cells of an inserted
row — for every column of the schema in effect at insert time, the
client-supplied value or, when the client omits the column, the column's
write-time default. -/
def storedCells (cols : List AColumn) (cells : List (Nat × Nat)) : List (Nat × Nat) :=
  cols.map (fun c => (c.cid, (lookupA cells c.cid).getD c.writeD))

/-- Modelled from the spec: apply one operation — an insert stores cells
per the current schema (duplicate keys rejected); AlterSchema adds a
column carrying a read-time and a write-time default and bumps the
schema version, accepted only when the expected version matches.
Accepted operations are appended to the write-ahead log. -/
def ATablet.applyA (t : ATablet) : AOp → ATablet
  | .ins k cells =>
    if (lookupA t.rows k).isSome then t
    else { t with rows := t.rows ++ [(k, storedCells t.cols cells)],
                  wal := t.wal ++ [.ins k cells] }
  | .alter expected c =>
    if expected = t.version + 1 then
      { t with cols := t.cols ++ [c], version := t.version + 1,
               wal := t.wal ++ [.alter expected c] }
    else t

def ATablet.init (base : List AColumn) : ATablet := ⟨base, 0, [], []⟩

def runA (base : List AColumn) (ops : List AOp) : ATablet :=
  ops.foldl ATablet.applyA (ATablet.init base)

/-- Modelled from the spec: read column `cid` of row `k` — the stored
cell when the row has one, else the column's read-time default (this is
what rows written before the column was added read back). -/
def ATablet.readCol (t : ATablet) (k cid : Nat) : Option Nat :=
  (lookupA t.rows k).map (fun cells =>
    match lookupA cells cid with
    | some v => v
    | none =>
      match findCol t.cols cid with
      | some c => c.readD
      | none => 0)

/-- Modelled from the spec: recovery — replay the log in order against an
empty tablet carrying the original base schema, re-logging every applied
record. -/
def rebuildA (base : List AColumn) (w : List AOp) : ATablet :=
  w.foldl ATablet.applyA (ATablet.init base)

theorem rebuildA_append (base : List AColumn) (w : List AOp) (o : AOp) :
    rebuildA base (w ++ [o]) = (rebuildA base w).applyA o := by
  simp [rebuildA, List.foldl_append]

theorem applyA_replay (base : List AColumn) (t : ATablet) (o : AOp)
    (h : rebuildA base t.wal = t) : rebuildA base (t.applyA o).wal = t.applyA o := by
  cases o with
  | ins k cells =>
    by_cases hk : (lookupA t.rows k).isSome
    · have ht' : t.applyA (.ins k cells) = t := by
        simp [ATablet.applyA, hk]
      rw [ht']
      exact h
    · have ht' : t.applyA (.ins k cells) =
          { t with rows := t.rows ++ [(k, storedCells t.cols cells)],
                   wal := t.wal ++ [.ins k cells] } := by
        simp [ATablet.applyA, hk]
      rw [ht']
      show rebuildA base (t.wal ++ [AOp.ins k cells]) = _
      rw [rebuildA_append, h]
      exact ht'
  | alter expected c =>
    by_cases he : expected = t.version + 1
    · have ht' : t.applyA (.alter expected c) =
          { t with cols := t.cols ++ [c], version := t.version + 1,
                   wal := t.wal ++ [.alter expected c] } := by
        simp [ATablet.applyA, he]
      rw [ht']
      show rebuildA base (t.wal ++ [AOp.alter expected c]) = _
      rw [rebuildA_append, h]
      exact ht'
    · have ht' : t.applyA (.alter expected c) = t := by
        simp [ATablet.applyA, he]
      rw [ht']
      exact h

/-- Recovery is the identity on reachable tablets: replaying the log of a
live run reproduces it exactly, including the re-logged log. -/
theorem runA_replay (base : List AColumn) (ops : List AOp) :
    rebuildA base (runA base ops).wal = runA base ops := by
  suffices h : ∀ t, rebuildA base t.wal = t →
      rebuildA base (ops.foldl ATablet.applyA t).wal = ops.foldl ATablet.applyA t by
    exact h (ATablet.init base) rfl
  induction ops with
  | nil => intro t ht; exact ht
  | cons o rest ih => intro t ht; exact ih (t.applyA o) (applyA_replay base t o ht)

def insOps (rs : List (Nat × List (Nat × Nat))) : List AOp :=
  rs.map (fun r => AOp.ins r.1 r.2)

theorem insFold_cols (rs : List (Nat × List (Nat × Nat))) :
    ∀ t : ATablet, ((insOps rs).foldl ATablet.applyA t).cols = t.cols ∧
      ((insOps rs).foldl ATablet.applyA t).version = t.version := by
  induction rs with
  | nil => intro t; exact ⟨rfl, rfl⟩
  | cons p rest ih =>
    intro t
    obtain ⟨k, ck⟩ := p
    show ((insOps rest).foldl ATablet.applyA (t.applyA (.ins k ck))).cols = t.cols ∧ _
    have hstep : (t.applyA (.ins k ck)).cols = t.cols ∧
        (t.applyA (.ins k ck)).version = t.version := by
      by_cases hk : (lookupA t.rows k).isSome <;> simp [ATablet.applyA, hk]
    obtain ⟨h1, h2⟩ := ih (t.applyA (.ins k ck))
    exact ⟨h1.trans hstep.1, h2.trans hstep.2⟩

theorem insFold_lookup_mono (rs : List (Nat × List (Nat × Nat))) :
    ∀ (t : ATablet) (k : Nat) (cells : List (Nat × Nat)),
      lookupA t.rows k = some cells →
      lookupA ((insOps rs).foldl ATablet.applyA t).rows k = some cells := by
  induction rs with
  | nil => intro t k cells h; exact h
  | cons p rest ih =>
    intro t k cells h
    obtain ⟨k', ck'⟩ := p
    show lookupA ((insOps rest).foldl ATablet.applyA (t.applyA (.ins k' ck'))).rows k = _
    refine ih (t.applyA (.ins k' ck')) k cells ?_
    by_cases hk : (lookupA t.rows k').isSome
    · simpa [ATablet.applyA, hk] using h
    · have : (t.applyA (.ins k' ck')).rows = t.rows ++ [(k', storedCells t.cols ck')] := by
        simp [ATablet.applyA, hk]
      rw [this, lookupA_append, h]

theorem insFold_new_rows (rs : List (Nat × List (Nat × Nat))) :
    ∀ (t : ATablet) (k : Nat) (cells : List (Nat × Nat)),
      lookupA t.rows k = none →
      lookupA ((insOps rs).foldl ATablet.applyA t).rows k = some cells →
      ∃ ck, (k, ck) ∈ rs ∧ cells = storedCells t.cols ck := by
  induction rs with
  | nil =>
    intro t k cells hn hs
    simp only [insOps, List.map_nil, List.foldl_nil] at hs
    rw [hn] at hs
    exact Option.noConfusion hs
  | cons p rest ih =>
    intro t k cells hn hs
    obtain ⟨k', ck'⟩ := p
    by_cases hk : (lookupA t.rows k').isSome
    · have ht' : t.applyA (.ins k' ck') = t := by simp [ATablet.applyA, hk]
      rw [show (insOps ((k', ck') :: rest)).foldl ATablet.applyA t =
            (insOps rest).foldl ATablet.applyA (t.applyA (.ins k' ck')) from rfl, ht'] at hs
      obtain ⟨ck, hmem, hcells⟩ := ih t k cells hn hs
      exact ⟨ck, List.mem_cons_of_mem _ hmem, hcells⟩
    · have hrows : (t.applyA (.ins k' ck')).rows =
          t.rows ++ [(k', storedCells t.cols ck')] := by
        simp [ATablet.applyA, hk]
      have hcols : (t.applyA (.ins k' ck')).cols = t.cols := by
        simp [ATablet.applyA, hk]
      by_cases hkk : k' = k
      · subst hkk
        have hl1 : lookupA (t.applyA (.ins k' ck')).rows k' =
            some (storedCells t.cols ck') := by
          rw [hrows]
          exact lookupA_append_self t.rows k' _ hn
        have hfin := insFold_lookup_mono rest (t.applyA (.ins k' ck')) k'
          (storedCells t.cols ck') hl1
        rw [show (insOps ((k', ck') :: rest)).foldl ATablet.applyA t =
              (insOps rest).foldl ATablet.applyA (t.applyA (.ins k' ck')) from rfl] at hs
        rw [hfin] at hs
        exact ⟨ck', List.mem_cons_self _ _, (Option.some.inj hs).symm⟩
      · have hl0 : lookupA (t.applyA (.ins k' ck')).rows k = none := by
          rw [hrows]
          rw [lookupA_append_other t.rows k' k _ hkk]
          exact hn
        rw [show (insOps ((k', ck') :: rest)).foldl ATablet.applyA t =
              (insOps rest).foldl ATablet.applyA (t.applyA (.ins k' ck')) from rfl] at hs
        obtain ⟨ck, hmem, hcells⟩ := ih (t.applyA (.ins k' ck')) k cells hl0 hs
        rw [hcols] at hcells
        exact ⟨ck, List.mem_cons_of_mem _ hmem, hcells⟩

theorem lookupA_storedCells (cols : List AColumn) (ck : List (Nat × Nat)) (cid : Nat) :
    lookupA (storedCells cols ck) cid =
      (findCol cols cid).map (fun c => (lookupA ck cid).getD c.writeD) := by
  induction cols with
  | nil => rfl
  | cons c t ih =>
    by_cases h : c.cid = cid
    · simp [storedCells, lookupA, findCol, h]
    · simp [storedCells, lookupA, findCol, h] at ih ⊢
      exact ih

theorem findCol_append (cols : List AColumn) (c2 : AColumn) (cid : Nat) :
    findCol (cols ++ [c2]) cid =
      match findCol cols cid with
      | some c => some c
      | none => if c2.cid = cid then some c2 else none := by
  induction cols with
  | nil => simp [findCol]
  | cons c t ih =>
    by_cases h : c.cid = cid <;> simp [findCol, h, ih]

/-- The alter-schema scenario: inserts, then one AlterSchema adding a
column, then more inserts. -/
def c8run (base : List AColumn) (c2 : AColumn)
    (pre post : List (Nat × List (Nat × Nat))) : ATablet :=
  runA base (insOps pre ++ AOp.alter 1 c2 :: insOps post)

/-- C8: after adding a column via AlterSchema with write-time default 5
and read-time default 7, every row inserted before the alteration reads
back 7 for that column and every row inserted after it that omits the
column reads back 5 — identically in the live tablet, after one
restart-and-replay, and after a second one. -/
theorem alter_schema_defaults (base : List AColumn) (cid : Nat)
    (pre post : List (Nat × List (Nat × Nat)))
    (hc2 : findCol base cid = none)
    (hpost : ∀ p ∈ post, lookupA p.2 cid = none) :
    (∀ k, (lookupA (runA base (insOps pre)).rows k).isSome →
      (c8run base ⟨cid, 7, 5⟩ pre post).readCol k cid = some 7 ∧
      (rebuildA base (c8run base ⟨cid, 7, 5⟩ pre post).wal).readCol k cid = some 7 ∧
      (rebuildA base (rebuildA base (c8run base ⟨cid, 7, 5⟩ pre post).wal).wal).readCol k cid
        = some 7) ∧
    (∀ k, lookupA (runA base (insOps pre)).rows k = none →
      (lookupA (c8run base ⟨cid, 7, 5⟩ pre post).rows k).isSome →
      (c8run base ⟨cid, 7, 5⟩ pre post).readCol k cid = some 5 ∧
      (rebuildA base (c8run base ⟨cid, 7, 5⟩ pre post).wal).readCol k cid = some 5 ∧
      (rebuildA base (rebuildA base (c8run base ⟨cid, 7, 5⟩ pre post).wal).wal).readCol k cid
        = some 5) := by
  set t1 := runA base (insOps pre) with ht1
  have ht1cols : t1.cols = base ∧ t1.version = 0 := insFold_cols pre (ATablet.init base)
  have halter : t1.applyA (.alter 1 ⟨cid, 7, 5⟩) =
      { t1 with cols := t1.cols ++ [⟨cid, 7, 5⟩], version := t1.version + 1,
                wal := t1.wal ++ [.alter 1 ⟨cid, 7, 5⟩] } := by
    simp [ATablet.applyA, ht1cols.2]
  have hrunsplit : c8run base ⟨cid, 7, 5⟩ pre post =
      (insOps post).foldl ATablet.applyA (t1.applyA (.alter 1 ⟨cid, 7, 5⟩)) := by
    rw [c8run, runA, List.foldl_append]
    rfl
  have hreplay : rebuildA base (c8run base ⟨cid, 7, 5⟩ pre post).wal =
      c8run base ⟨cid, 7, 5⟩ pre post := runA_replay base _
  have ht2cols : (t1.applyA (.alter 1 ⟨cid, 7, 5⟩)).cols = base ++ [⟨cid, 7, 5⟩] := by
    rw [halter, ht1cols.1]
  have ht3cols : (c8run base ⟨cid, 7, 5⟩ pre post).cols = base ++ [⟨cid, 7, 5⟩] := by
    rw [hrunsplit, (insFold_cols post _).1, ht2cols]
  have hfind : findCol (base ++ [⟨cid, 7, 5⟩]) cid = some ⟨cid, 7, 5⟩ := by
    rw [findCol_append, hc2]
    simp
  constructor
  · intro k hk
    obtain ⟨cells, hcells⟩ := Option.isSome_iff_exists.mp hk
    obtain ⟨ck, _, hstored⟩ := insFold_new_rows pre (ATablet.init base) k cells rfl hcells
    have hnone : lookupA cells cid = none := by
      rw [hstored, show (ATablet.init base).cols = base from rfl, lookupA_storedCells, hc2]
      rfl
    have hrow2 : lookupA (t1.applyA (.alter 1 ⟨cid, 7, 5⟩)).rows k = some cells := by
      rw [halter]
      exact hcells
    have hrow3 : lookupA (c8run base ⟨cid, 7, 5⟩ pre post).rows k = some cells := by
      rw [hrunsplit]
      exact insFold_lookup_mono post _ k cells hrow2
    have hread : (c8run base ⟨cid, 7, 5⟩ pre post).readCol k cid = some 7 := by
      rw [ATablet.readCol, hrow3, ht3cols]
      simp [hnone, hfind]
    refine ⟨hread, ?_, ?_⟩
    · rw [hreplay]
      exact hread
    · rw [hreplay, hreplay]
      exact hread
  · intro k hk0 hk
    obtain ⟨cells, hcells⟩ := Option.isSome_iff_exists.mp hk
    have hrow2 : lookupA (t1.applyA (.alter 1 ⟨cid, 7, 5⟩)).rows k = none := by
      rw [halter]
      exact hk0
    rw [hrunsplit] at hcells
    obtain ⟨ck, hmem, hstored⟩ :=
      insFold_new_rows post (t1.applyA (.alter 1 ⟨cid, 7, 5⟩)) k cells hrow2 hcells
    have hckn : lookupA ck cid = none := hpost (k, ck) hmem
    have hfive : lookupA cells cid = some 5 := by
      rw [hstored, ht2cols, lookupA_storedCells, hfind, hckn]
      rfl
    have hread : (c8run base ⟨cid, 7, 5⟩ pre post).readCol k cid = some 5 := by
      rw [ATablet.readCol]
      rw [show lookupA (c8run base ⟨cid, 7, 5⟩ pre post).rows k = some cells from by
        rw [hrunsplit]; exact hcells]
      simp [hfive]
    refine ⟨hread, ?_, ?_⟩
    · rw [hreplay]
      exact hread
    · rw [hreplay, hreplay]
      exact hread

def c8Base : List AColumn := [⟨1, 0, 0⟩]

def c8Pre : List (Nat × List (Nat × Nat)) := [(0, [(1, 0)]), (1, [(1, 1)])]

def c8Post : List (Nat × List (Nat × Nat)) := [(2, [(1, 2)]), (3, [(1, 3)])]

theorem alter_schema_defaults_witness :
    ((lookupA (runA c8Base (insOps c8Pre)).rows 0).isSome ∧
      (c8run c8Base ⟨2, 7, 5⟩ c8Pre c8Post).readCol 0 2 = some 7 ∧
      (rebuildA c8Base (c8run c8Base ⟨2, 7, 5⟩ c8Pre c8Post).wal).readCol 0 2 = some 7 ∧
      (rebuildA c8Base
        (rebuildA c8Base (c8run c8Base ⟨2, 7, 5⟩ c8Pre c8Post).wal).wal).readCol 0 2 =
        some 7) ∧
    (lookupA (runA c8Base (insOps c8Pre)).rows 2 = none ∧
      (lookupA (c8run c8Base ⟨2, 7, 5⟩ c8Pre c8Post).rows 2).isSome ∧
      (c8run c8Base ⟨2, 7, 5⟩ c8Pre c8Post).readCol 2 2 = some 5 ∧
      (rebuildA c8Base (c8run c8Base ⟨2, 7, 5⟩ c8Pre c8Post).wal).readCol 2 2 = some 5 ∧
      (rebuildA c8Base
        (rebuildA c8Base (c8run c8Base ⟨2, 7, 5⟩ c8Pre c8Post).wal).wal).readCol 2 2 =
        some 5) := by
  have h := alter_schema_defaults c8Base 2 c8Pre c8Post (by decide) (by decide)
  refine ⟨⟨by decide, ?_⟩, by decide, by decide, ?_⟩
  · exact h.1 0 (by decide)
  · exact h.2 2 (by decide) (by decide)

end KuduSpec
